import Mathlib

/-!
Verification of the core of the `python_inspect` repository against its
specification.

Part 1 embeds `src/transform_recursion.py`: the AST fragment it manipulates
(`ast.If`, `ast.Return`, `ast.Call`, `ast.Match`, `ast.Assign`, `ast.While`,
`ast.Constant`, `ast.Name`, `ast.BinOp`, `ast.Compare`, `ast.Tuple`), the
`TailRecursionTransformer` rewriting, and a fuel-based interpreter giving the
Python semantics of the embedded fragment (a call with insufficient fuel or a
runtime error evaluates to `none`).

Part 2 embeds `src/rewrite_gen.py`: the `PracticalStateMachine` wrapper
produced by `practical_serializable_generator`, with an explicit store for
Python list objects so that list aliasing (`get_state` / `set_state` share the
`values_yielded` list by reference) is modelled faithfully, and a model of
`json.dumps(..., default=str)` / `json.loads` on the value universe.
-/

/-- Python values of the fragment used by the repository: ints, bools,
strings, `None`, lists, tuples, string-keyed dicts, and opaque non-JSON
objects whose `str()` form is recorded. -/
inductive Value where
  | int (n : Int)
  | bool (b : Bool)
  | str (s : String)
  | pynone
  | list (xs : List Value)
  | tuple (xs : List Value)
  | dict (kvs : List (String × Value))
  | obj (descr : String)

mutual

/-- Structural equality on values (Python `==` restricted to this universe). -/
def Value.beq : Value → Value → Bool
  | .int a, .int b => a == b
  | .bool a, .bool b => a == b
  | .str a, .str b => a == b
  | .pynone, .pynone => true
  | .list xs, .list ys => Value.beqList xs ys
  | .tuple xs, .tuple ys => Value.beqList xs ys
  | .dict xs, .dict ys => Value.beqKVs xs ys
  | .obj a, .obj b => a == b
  | _, _ => false

/-- Elementwise equality of value lists. -/
def Value.beqList : List Value → List Value → Bool
  | [], [] => true
  | x :: xs, y :: ys => Value.beq x y && Value.beqList xs ys
  | _, _ => false

/-- Elementwise equality of key-value lists. -/
def Value.beqKVs : List (String × Value) → List (String × Value) → Bool
  | [], [] => true
  | (k1, v1) :: xs, (k2, v2) :: ys => k1 == k2 && Value.beq v1 v2 && Value.beqKVs xs ys
  | _, _ => false

end

/-- Python truthiness of a value. -/
def truthy : Value → Bool
  | .int n => n != 0
  | .bool b => b
  | .str s => s != ""
  | .pynone => false
  | .list xs => !xs.isEmpty
  | .tuple xs => !xs.isEmpty
  | .dict kvs => !kvs.isEmpty
  | .obj _ => true

/-- Binary arithmetic operators appearing in the sources (`ast.Add`,
`ast.Sub`, `ast.Mult`). -/
inductive Binop where
  | add
  | sub
  | mult

/-- Comparison operators (`ast.Lt`, `ast.LtE`, `ast.Eq`, `ast.Gt`, `ast.GtE`). -/
inductive Cmpop where
  | lt
  | ltE
  | eq
  | gt
  | gtE

/-- Expressions of the embedded fragment, mirroring the `ast` nodes the
repository manipulates.  A call target is an `ast.Name`, as in the sources. -/
inductive Expr where
  | constant (v : Value)
  | name (id : String)
  | binop (l : Expr) (op : Binop) (r : Expr)
  | compare (l : Expr) (op : Cmpop) (r : Expr)
  | call (func : String) (args : List Expr)
  | tupleE (elts : List Expr)

/-- Match patterns of the fragment: `ast.MatchValue`, `ast.MatchOr`, and the
wildcard `case _`.  `transform_recursion.py` never inspects patterns. -/
inductive Pat where
  | matchValue (v : Value)
  | matchOr (pats : List Pat)
  | wildcard

/-- Assignment targets: a plain name or a tuple of names (the transformer
only ever builds `ast.Tuple` targets of `ast.Name`s). -/
inductive Target where
  | tname (s : String)
  | ttuple (names : List String)

/-- Statements of the embedded fragment. -/
inductive Stmt where
  | exprStmt (e : Expr)
  | ret (e : Expr)
  | ifS (test : Expr) (body : List Stmt) (orelse : List Stmt)
  | assign (target : Target) (value : Expr)
  | whileS (test : Expr) (body : List Stmt)
  | matchS (subject : Expr) (cases : List (Pat × List Stmt))

/-- A function definition: name, positional parameter names
(`node.args.args`), default values for the trailing parameters, body. -/
structure FuncDef where
  name : String
  args : List String
  defaults : List Value
  body : List Stmt

/-- `TailRecursionTransformer._make_assignment_from_call`: build the tuple
assignment `p1, ..., pk = a1, ..., ak` rebinding the parameters from the tail
call arguments; `none` when the argument count differs from the arity. -/
def make_assignment_from_call (param_names : List String) (call_args : List Expr) :
    Option Stmt :=
  if call_args.length = param_names.length then
    some (Stmt.assign (Target.ttuple param_names) (Expr.tupleE call_args))
  else none

/-- `TailRecursionTransformer._maybe_transform_if_tail_recursion`: requires
`len(node.body) == 3` with `node.body[1]` an `if` whose body is a single
`return` and whose `orelse` is empty, and `node.body[2]` a `return` of a call
to the function itself; `node.body[0]` (the docstring slot) is never
inspected.  On success the whole body is replaced by a single `while True`
loop. -/
def maybe_transform_if_tail_recursion (fn : FuncDef) : Option (List Stmt) :=
  match fn.body with
  | [_doc, Stmt.ifS test ifBody orelse, Stmt.ret retVal] =>
    match ifBody, orelse with
    | [Stmt.ret baseE], [] =>
      match retVal with
      | Expr.call f callArgs =>
        if f = fn.name then
          match make_assignment_from_call fn.args callArgs with
          | some asn =>
            some [Stmt.whileS (Expr.constant (Value.bool true))
              [Stmt.ifS test [Stmt.ret baseE] [], asn]]
          | none => none
        else none
      | _ => none
    | _, _ => none
  | _ => none

/-- The test `_maybe_transform_match_tail_recursion` applies to each match
arm: the arm body is a single `return` of a call to the function itself. -/
def is_tail_call_case (fname : String) : Pat × List Stmt → Bool
  | (_, [Stmt.ret (Expr.call f _)]) => f == fname
  | _ => false

/-- The argument list of the tail call carried by a tail-call arm. -/
def tail_call_args_of : Pat × List Stmt → List Expr
  | (_, [Stmt.ret (Expr.call _ as_)]) => as_
  | _ => []

/-- `TailRecursionTransformer._maybe_transform_match_tail_recursion`:
requires `len(node.body) == 2` with `node.body[1]` a `match`; scans the arms
for tail-call arms, failing when there are zero or at least two of them
(the Python loop aborts on the second find, which is equivalent to requiring
that the filtered list of tail-call arms be a singleton); replaces the unique
tail-call arm body by the parameter rebinding and wraps the match in
`while True`. -/
def maybe_transform_match_tail_recursion (fn : FuncDef) : Option (List Stmt) :=
  match fn.body with
  | [_doc, Stmt.matchS subject cases] =>
    match cases.filter (is_tail_call_case fn.name) with
    | [tc] =>
      match make_assignment_from_call fn.args (tail_call_args_of tc) with
      | some asn =>
        some [Stmt.whileS (Expr.constant (Value.bool true))
          [Stmt.matchS subject (cases.map (fun c =>
            if is_tail_call_case fn.name c then (c.1, [asn]) else c))]]
      | none => none
    | _ => none
  | _ => none

/-- The `tail_recursive` decorator at the level of function definitions: try
the if-shape, then the match-shape, and on failure return the function
unchanged (`visit_FunctionDef` falls through to `return node`).  Name and
parameters are preserved, as `new_func.__name__ = func.__name__` does. -/
def tail_recursive (fn : FuncDef) : FuncDef :=
  match maybe_transform_if_tail_recursion fn with
  | some nb => { fn with body := nb }
  | none =>
    match maybe_transform_match_tail_recursion fn with
    | some nb => { fn with body := nb }
    | none => fn

/-- Runtime environments: Python local namespaces of the interpreted
function, as finite maps from names to values. -/
abbrev Env := String → Option Value

/-- Bind one name. -/
def Env.set (env : Env) (x : String) (v : Value) : Env :=
  fun s => if s = x then some v else env s

/-- Bind names to values pairwise, left to right (Python tuple unpacking
order); call sites guarantee equal lengths. -/
def Env.setMany (env : Env) : List String → List Value → Env
  | x :: xs, v :: vs => Env.setMany (env.set x v) xs vs
  | _, _ => env

/-- Evaluate a binary arithmetic operator; integer arithmetic only in the
embedded fragment. -/
def evalBinop (a : Value) (op : Binop) (b : Value) : Option Value :=
  match a, b with
  | Value.int m, Value.int n =>
    match op with
    | Binop.add => some (Value.int (m + n))
    | Binop.sub => some (Value.int (m - n))
    | Binop.mult => some (Value.int (m * n))
  | _, _ => none

/-- Evaluate a comparison operator: order comparisons on integers, equality
on any values. -/
def evalCmpop (a : Value) (op : Cmpop) (b : Value) : Option Value :=
  match op with
  | Cmpop.eq => some (Value.bool (Value.beq a b))
  | _ =>
    match a, b with
    | Value.int m, Value.int n =>
      match op with
      | Cmpop.lt => some (Value.bool (m < n))
      | Cmpop.ltE => some (Value.bool (m ≤ n))
      | Cmpop.gt => some (Value.bool (m > n))
      | Cmpop.gtE => some (Value.bool (m ≥ n))
      | Cmpop.eq => some (Value.bool (Value.beq a b))
    | _, _ => none

mutual

/-- Does a pattern match a value (Python structural pattern matching on the
embedded fragment: literal values, or-patterns, wildcard)? -/
def matchPat : Pat → Value → Bool
  | Pat.matchValue w, v => Value.beq w v
  | Pat.matchOr ps, v => matchPatList ps v
  | Pat.wildcard, _ => true

/-- Does any pattern of an or-pattern match? -/
def matchPatList : List Pat → Value → Bool
  | [], _ => false
  | p :: ps, v => matchPat p v || matchPatList ps v

end

/-- Call oracle: the semantics given to a recursive occurrence of the
interpreted function's own name. -/
abbrev Oracle := List Value → Option Value

mutual

/-- Evaluate an expression.  A call is meaningful only when it targets the
interpreted function's own name (the only global the embedded programs use);
it is answered by the oracle `o`. -/
def evalExpr (o : Oracle) (fname : String) (env : Env) : Expr → Option Value
  | Expr.constant v => some v
  | Expr.name id => env id
  | Expr.binop l op r =>
    match evalExpr o fname env l with
    | some a =>
      match evalExpr o fname env r with
      | some b => evalBinop a op b
      | none => none
    | none => none
  | Expr.compare l op r =>
    match evalExpr o fname env l with
    | some a =>
      match evalExpr o fname env r with
      | some b => evalCmpop a op b
      | none => none
    | none => none
  | Expr.call f args =>
    if f = fname then
      match evalArgs o fname env args with
      | some vs => o vs
      | none => none
    else none
  | Expr.tupleE elts =>
    match evalArgs o fname env elts with
    | some vs => some (Value.tuple vs)
    | none => none

/-- Evaluate a list of expressions left to right. -/
def evalArgs (o : Oracle) (fname : String) (env : Env) : List Expr → Option (List Value)
  | [] => some []
  | e :: es =>
    match evalExpr o fname env e with
    | some v =>
      match evalArgs o fname env es with
      | some vs => some (v :: vs)
      | none => none
    | none => none

end

/-- Result of executing statements: an early `return`, or normal completion
with the updated environment. -/
inductive ExecR where
  | ret (v : Value)
  | next (env : Env)

/-- Perform a tuple or single-name assignment of an already evaluated value
(Python raises on unpacking mismatch, modelled as `none`). -/
def execAssign (env : Env) (t : Target) (v : Value) : Option Env :=
  match t with
  | Target.tname x => some (env.set x v)
  | Target.ttuple xs =>
    match v with
    | Value.tuple vs => if vs.length = xs.length then some (Env.setMany env xs vs) else none
    | Value.list vs => if vs.length = xs.length then some (Env.setMany env xs vs) else none
    | _ => none

/-- Run a `while` loop for at most `k` iterations: evaluate the test, run the
body on truth, stop with the current environment on falsity.  `none` when the
iteration budget is exhausted. -/
def execWhile (testF : Env → Option Value) (bodyF : Env → Option ExecR) :
    Nat → Env → Option ExecR
  | 0, _ => none
  | k + 1, env =>
    match testF env with
    | some c =>
      if truthy c then
        match bodyF env with
        | some (ExecR.next env2) => execWhile testF bodyF k env2
        | r => r
      else some (ExecR.next env)
    | none => none

mutual

/-- Execute one statement.  `wfuel` bounds every loop's iteration count. -/
def execStmt (o : Oracle) (fname : String) (wfuel : Nat) (env : Env) :
    Stmt → Option ExecR
  | Stmt.exprStmt e =>
    match evalExpr o fname env e with
    | some _ => some (ExecR.next env)
    | none => none
  | Stmt.ret e =>
    match evalExpr o fname env e with
    | some v => some (ExecR.ret v)
    | none => none
  | Stmt.ifS t b orelse =>
    match evalExpr o fname env t with
    | some c =>
      if truthy c then execStmts o fname wfuel env b
      else execStmts o fname wfuel env orelse
    | none => none
  | Stmt.assign tgt e =>
    match evalExpr o fname env e with
    | some v =>
      match execAssign env tgt v with
      | some env2 => some (ExecR.next env2)
      | none => none
    | none => none
  | Stmt.whileS t b =>
    execWhile (fun env2 => evalExpr o fname env2 t)
      (fun env2 => execStmts o fname wfuel env2 b) wfuel env
  | Stmt.matchS subj cases =>
    match evalExpr o fname env subj with
    | some v => execCases o fname wfuel env v cases
    | none => none

/-- Execute a statement list in sequence. -/
def execStmts (o : Oracle) (fname : String) (wfuel : Nat) (env : Env) :
    List Stmt → Option ExecR
  | [] => some (ExecR.next env)
  | s :: rest =>
    match execStmt o fname wfuel env s with
    | some (ExecR.next env2) => execStmts o fname wfuel env2 rest
    | r => r

/-- Execute the arms of a `match` on an already evaluated subject: first
matching arm runs, no matching arm falls through. -/
def execCases (o : Oracle) (fname : String) (wfuel : Nat) (env : Env) (v : Value) :
    List (Pat × List Stmt) → Option ExecR
  | [] => some (ExecR.next env)
  | (p, body) :: rest =>
    if matchPat p v then execStmts o fname wfuel env body
    else execCases o fname wfuel env v rest

end

/-- Bind call arguments to parameters, filling trailing parameters from the
default values exactly as Python does; `none` on arity errors. -/
def bindParams (params : List String) (defaults : List Value) (args : List Value) :
    Option Env :=
  if args.length ≤ params.length ∧ params.length ≤ args.length + defaults.length then
    some (Env.setMany (fun _ => none) params
      (args ++ defaults.drop (args.length + defaults.length - params.length)))
  else none

/-- Call a function definition with the given fuel: one unit of fuel is spent
per call level, and the remaining fuel also bounds loop iterations.  `none`
means the fuel ran out or a runtime error occurred. -/
def callFunc (fn : FuncDef) : Nat → List Value → Option Value
  | 0, _ => none
  | fuel + 1, argv =>
    match bindParams fn.args fn.defaults argv with
    | some env =>
      match execStmts (fun vs => callFunc fn fuel vs) fn.name fuel env fn.body with
      | some (ExecR.ret v) => some v
      | some (ExecR.next _) => some Value.pynone
      | none => none
    | none => none

/-- The source's `factorial_if` example, before transformation. -/
def factorial_if : FuncDef where
  name := "factorial_if"
  args := ["n", "acc"]
  defaults := [Value.int 1]
  body := [
    Stmt.exprStmt (Expr.constant (Value.str "Tail-recursive factorial using if.")),
    Stmt.ifS (Expr.compare (Expr.name "n") Cmpop.ltE (Expr.constant (Value.int 1)))
      [Stmt.ret (Expr.name "acc")] [],
    Stmt.ret (Expr.call "factorial_if"
      [Expr.binop (Expr.name "n") Binop.sub (Expr.constant (Value.int 1)),
       Expr.binop (Expr.name "acc") Binop.mult (Expr.name "n")])]

/-- The source's `factorial_match` example, before transformation. -/
def factorial_match : FuncDef where
  name := "factorial_match"
  args := ["n", "acc"]
  defaults := [Value.int 1]
  body := [
    Stmt.exprStmt (Expr.constant (Value.str "Tail-recursive factorial using match.")),
    Stmt.matchS (Expr.name "n") [
      (Pat.matchOr [Pat.matchValue (Value.int 0), Pat.matchValue (Value.int 1)],
        [Stmt.ret (Expr.name "acc")]),
      (Pat.wildcard,
        [Stmt.ret (Expr.call "factorial_match"
          [Expr.binop (Expr.name "n") Binop.sub (Expr.constant (Value.int 1)),
           Expr.binop (Expr.name "acc") Binop.mult (Expr.name "n")])])]]

/-- A swap-style (Fibonacci) guarded tail-recursive function, exercising the
cross-dependent simultaneous rebind `n, a, b = n - 1, b, a + b`. -/
def fib_swap : FuncDef where
  name := "fib_swap"
  args := ["n", "a", "b"]
  defaults := [Value.int 0, Value.int 1]
  body := [
    Stmt.exprStmt (Expr.constant (Value.str "Swap-style tail recursion.")),
    Stmt.ifS (Expr.compare (Expr.name "n") Cmpop.ltE (Expr.constant (Value.int 0)))
      [Stmt.ret (Expr.name "a")] [],
    Stmt.ret (Expr.call "fib_swap"
      [Expr.binop (Expr.name "n") Binop.sub (Expr.constant (Value.int 1)),
       Expr.name "b",
       Expr.binop (Expr.name "a") Binop.add (Expr.name "b")])]

/-- A reference to a Python list object on the heap. -/
abbrev Ref := Nat

/-- A heap of Python list objects, as used by `PracticalStateMachine`:
`values_yielded` lists live here because `get_state`, `set_state` and
`clone_at_state` share them by reference. -/
structure Store where
  cells : List (List Value)

/-- Read the list object behind a reference. -/
def Store.get (st : Store) (r : Ref) : List Value :=
  st.cells.getD r []

/-- Overwrite the list object behind a reference (in-place mutation such as
`list.append`). -/
def Store.setCell (st : Store) (r : Ref) (xs : List Value) : Store :=
  Store.mk (st.cells.set r xs)

/-- Allocate a fresh list object. -/
def Store.alloc (st : Store) (xs : List Value) : Ref × Store :=
  (st.cells.length, Store.mk (st.cells ++ [xs]))

/-- The empty heap. -/
def Store.empty : Store :=
  Store.mk []

/-- A generator-producing factory, i.e. the decorated `func` of
`practical_serializable_generator`: invoked with the stored positional
arguments and keyword arguments, it yields a fixed finite sequence of
values.  Being a Lean function it is deterministic and side-effect free
across repeated invocations, which is the spec's stated precondition. -/
abbrev Factory := Value → Value → List Value

/-- The state of a `PracticalStateMachine` instance.  `values_yielded` is a
reference to a heap list; `gen_seq`/`gen_pos` model `self.generator`, the
current generator object: the sequence it was created with and how many
items it has already produced. -/
structure PracticalStateMachine where
  args : Value
  kwargs : Value
  values_yielded : Ref
  step_count : Nat
  exhausted : Bool
  gen_seq : List Value
  gen_pos : Nat

/-- `PracticalStateMachine.__init__`: store the arguments, start with an
empty (freshly allocated) `values_yielded` list, `step_count = 0`,
`exhausted = False`, and a fresh generator (`self._reset()`). -/
def PracticalStateMachine.init (fac : Factory) (args kwargs : Value) (st : Store) :
    PracticalStateMachine × Store :=
  let rst := st.alloc []
  ({ args := args, kwargs := kwargs, values_yielded := rst.1, step_count := 0,
     exhausted := false, gen_seq := fac args kwargs, gen_pos := 0 }, rst.2)

/-- `PracticalStateMachine.__next__`: raise `StopIteration` (modelled as
`none`) when already exhausted; otherwise pull the next generator item,
append it to the shared `values_yielded` list and bump `step_count`; when
the generator is spent, set `exhausted` and re-raise. -/
def PracticalStateMachine.next (m : PracticalStateMachine) (st : Store) :
    Option Value × PracticalStateMachine × Store :=
  if m.exhausted then (none, m, st)
  else
    match m.gen_seq[m.gen_pos]? with
    | some v =>
      (some v,
       { m with gen_pos := m.gen_pos + 1, step_count := m.step_count + 1 },
       st.setCell m.values_yielded (st.get m.values_yielded ++ [v]))
    | none => (none, { m with exhausted := true }, st)

/-- The dictionary returned by `PracticalStateMachine.get_state`: note that
`values_yielded` is the same list object as the wrapper's (`Ref`), not a
copy. -/
structure StateDict where
  func_name : String
  args : Value
  kwargs : Value
  step_count : Nat
  values_yielded : Ref
  exhausted : Bool

/-- `PracticalStateMachine.get_state` (the spec's `snapshot`): build the
state dictionary from the current fields.  `fname` is `self.func.__name__`. -/
def PracticalStateMachine.get_state (fname : String) (m : PracticalStateMachine) :
    StateDict :=
  { func_name := fname, args := m.args, kwargs := m.kwargs,
    step_count := m.step_count, values_yielded := m.values_yielded,
    exhausted := m.exhausted }

/-- `PracticalStateMachine.set_state` (the spec's `restore`): adopt the
dictionary's fields (sharing its `values_yielded` list), then only when the
state is not exhausted and `step_count > 0`, re-create a fresh generator via
`self._reset()` and advance it silently `step_count` times, marking
exhaustion if the fresh sequence is shorter than `step_count`.  When
`step_count = 0` or the state is exhausted the current generator is kept. -/
def PracticalStateMachine.set_state (fac : Factory) (m : PracticalStateMachine)
    (sd : StateDict) : PracticalStateMachine :=
  let m1 := { m with
    args := sd.args,
    kwargs := sd.kwargs,
    step_count := sd.step_count,
    values_yielded := sd.values_yielded,
    exhausted := sd.exhausted }
  if sd.exhausted = false ∧ 0 < sd.step_count then
    let seq := fac sd.args sd.kwargs
    if seq.length < sd.step_count then
      { m1 with gen_seq := seq, gen_pos := seq.length, exhausted := true }
    else
      { m1 with gen_seq := seq, gen_pos := sd.step_count }
  else m1

/-- `PracticalStateMachine.clone_at_state`: construct a fresh instance with
the same constructor arguments, then `set_state` it from the current
snapshot.  The clone shares the `values_yielded` list with the original. -/
def PracticalStateMachine.clone_at_state (fac : Factory) (fname : String)
    (m : PracticalStateMachine) (st : Store) : PracticalStateMachine × Store :=
  let fresh := PracticalStateMachine.init fac m.args m.kwargs st
  (PracticalStateMachine.set_state fac fresh.1 (PracticalStateMachine.get_state fname m),
   fresh.2)

/-- JSON documents, the image of `json.dumps` / domain of `json.loads`. -/
inductive JVal where
  | null
  | jbool (b : Bool)
  | num (n : Int)
  | jstr (s : String)
  | arr (xs : List JVal)
  | jobj (kvs : List (String × JVal))

mutual

/-- `json.dumps(..., default=str)` on a value: native JSON types encode
directly, tuples encode as arrays exactly like lists, and any unsupported
object is passed to `default=str`, i.e. replaced by its string form.  This
encoder is total: no value makes it fail. -/
def pyToJson : Value → JVal
  | Value.int n => JVal.num n
  | Value.bool b => JVal.jbool b
  | Value.str s => JVal.jstr s
  | Value.pynone => JVal.null
  | Value.list xs => JVal.arr (pyToJsonList xs)
  | Value.tuple xs => JVal.arr (pyToJsonList xs)
  | Value.dict kvs => JVal.jobj (pyToJsonKVs kvs)
  | Value.obj d => JVal.jstr d

/-- Encode the elements of a list or tuple. -/
def pyToJsonList : List Value → List JVal
  | [] => []
  | x :: xs => pyToJson x :: pyToJsonList xs

/-- Encode the entries of a dict. -/
def pyToJsonKVs : List (String × Value) → List (String × JVal)
  | [] => []
  | (k, v) :: kvs => (k, pyToJson v) :: pyToJsonKVs kvs

end

mutual

/-- `json.loads` on a document: arrays decode to Python lists (never back to
tuples), objects to dicts. -/
def jsonToPy : JVal → Value
  | JVal.null => Value.pynone
  | JVal.jbool b => Value.bool b
  | JVal.num n => Value.int n
  | JVal.jstr s => Value.str s
  | JVal.arr xs => Value.list (jsonToPyList xs)
  | JVal.jobj kvs => Value.dict (jsonToPyKVs kvs)

/-- Decode the elements of an array. -/
def jsonToPyList : List JVal → List Value
  | [] => []
  | x :: xs => jsonToPy x :: jsonToPyList xs

/-- Decode the entries of an object. -/
def jsonToPyKVs : List (String × JVal) → List (String × Value)
  | [] => []
  | (k, v) :: kvs => (k, jsonToPy v) :: jsonToPyKVs kvs

end

mutual

/-- A value survives the JSON round trip unchanged exactly when it is built
from ints, bools, strings, `None`, lists and string-keyed dicts only:
tuples come back as lists and opaque objects as strings. -/
def jsonStable : Value → Bool
  | Value.int _ => true
  | Value.bool _ => true
  | Value.str _ => true
  | Value.pynone => true
  | Value.list xs => jsonStableList xs
  | Value.tuple _ => false
  | Value.dict kvs => jsonStableKVs kvs
  | Value.obj _ => false

/-- All elements JSON-stable. -/
def jsonStableList : List Value → Bool
  | [] => true
  | x :: xs => jsonStable x && jsonStableList xs

/-- All entry values JSON-stable. -/
def jsonStableKVs : List (String × Value) → Bool
  | [] => true
  | (_, v) :: kvs => jsonStable v && jsonStableKVs kvs

end

/-- `PracticalStateMachine.to_json` of a state dictionary: the JSON document
`json.dumps(state_dict, default=str)` produces, reading the shared
`values_yielded` list from the heap at encoding time. -/
def encode_state (sd : StateDict) (st : Store) : JVal :=
  JVal.jobj [
    ("func_name", JVal.jstr sd.func_name),
    ("args", pyToJson sd.args),
    ("kwargs", pyToJson sd.kwargs),
    ("step_count", JVal.num sd.step_count),
    ("values_yielded", JVal.arr (pyToJsonList (st.get sd.values_yielded))),
    ("exhausted", JVal.jbool sd.exhausted)]

/-- The value-level contents of a state dictionary (the snapshot with its
`values_yielded` list dereferenced), used to compare a state against its
decoded round trip. -/
structure StateVal where
  func_name : String
  args : Value
  kwargs : Value
  step_count : Nat
  values_yielded : List Value
  exhausted : Bool

/-- Dereference a state dictionary into its value-level contents. -/
def state_val (sd : StateDict) (st : Store) : StateVal :=
  { func_name := sd.func_name, args := sd.args, kwargs := sd.kwargs,
    step_count := sd.step_count, values_yielded := st.get sd.values_yielded,
    exhausted := sd.exhausted }

/-- Find a key in a decoded JSON object. -/
def jlookup (kvs : List (String × JVal)) (k : String) : Option JVal :=
  (kvs.find? (fun kv => kv.1 == k)).map (fun kv => kv.2)

/-- `json.loads` of a serialized state followed by the field accesses
`set_state` performs: produces the value-level state the restored wrapper
adopts.  `none` models a `KeyError` or type error on a malformed document;
on documents produced by `encode_state` it always succeeds. -/
def decode_state (j : JVal) : Option StateVal :=
  match j with
  | JVal.jobj kvs =>
    match jlookup kvs "func_name", jlookup kvs "args", jlookup kvs "kwargs",
        jlookup kvs "step_count", jlookup kvs "values_yielded",
        jlookup kvs "exhausted" with
    | some (JVal.jstr fn), some argsJ, some kwargsJ, some (JVal.num stepJ),
        some (JVal.arr vyJ), some (JVal.jbool ex) =>
      some { func_name := fn, args := jsonToPy argsJ, kwargs := jsonToPy kwargsJ,
             step_count := stepJ.toNat, values_yielded := jsonToPyList vyJ,
             exhausted := ex }
    | _, _, _, _, _, _ => none
  | _ => none

/-- `PracticalStateMachine.from_json`: decode the document (`json.loads`
builds a brand-new list for `values_yielded`, so a fresh heap cell is
allocated) and hand the resulting dictionary to `set_state`. -/
def PracticalStateMachine.from_json (fac : Factory) (m : PracticalStateMachine)
    (j : JVal) (st : Store) : Option (PracticalStateMachine × Store) :=
  match decode_state j with
  | some sv =>
    let rst := st.alloc sv.values_yielded
    some (PracticalStateMachine.set_state fac m
      { func_name := sv.func_name, args := sv.args, kwargs := sv.kwargs,
        step_count := sv.step_count, values_yielded := rst.1,
        exhausted := sv.exhausted }, rst.2)
  | none => none

/-- A concrete deterministic factory for examples: yields the positional
arguments themselves, one by one. -/
def echoFactory : Factory :=
  fun args _ =>
    match args with
    | Value.tuple xs => xs
    | Value.list xs => xs
    | _ => []

/-! ### Basic lemmas about environments and the interpreter -/

theorem Env.setMany_outside (env : Env) (ps : List String) (vs : List Value)
    (s : String) (hs : ¬ s ∈ ps) : Env.setMany env ps vs s = env s := by
  induction ps generalizing env vs with
  | nil => cases vs <;> rfl
  | cons x xs ih =>
    cases vs with
    | nil => rfl
    | cons v vtl =>
      simp only [List.mem_cons, not_or] at hs
      rw [Env.setMany, ih _ _ hs.2, Env.set, if_neg hs.1]

theorem Env.setMany_congr (env1 env2 : Env) (ps : List String) (vs : List Value)
    (h : ∀ s, ¬ s ∈ ps → env1 s = env2 s) (hlen : ps.length = vs.length) :
    Env.setMany env1 ps vs = Env.setMany env2 ps vs := by
  induction ps generalizing env1 env2 vs with
  | nil =>
    cases vs with
    | nil => funext s; exact h s (by simp)
    | cons v vtl => simp at hlen
  | cons x xs ih =>
    cases vs with
    | nil => simp at hlen
    | cons v vtl =>
      rw [Env.setMany, Env.setMany]
      refine ih _ _ _ ?_ (by simpa using hlen)
      intro s hsx
      by_cases hx : s = x
      · subst hx; simp [Env.set]
      · simp only [Env.set, if_neg hx]
        refine h s ?_
        simp [hx, hsx]

theorem bindParams_exact (params : List String) (defaults : List Value)
    (args : List Value) (hlen : args.length = params.length) :
    bindParams params defaults args =
      some (Env.setMany (fun _ => none) params args) := by
  rw [bindParams, if_pos]
  · have hd : args.length + defaults.length - params.length = defaults.length := by
      omega
    rw [hd]
    simp
  · omega

theorem evalArgs_length (o : Oracle) (fname : String) (env : Env) :
    ∀ (es : List Expr) (vs : List Value),
      evalArgs o fname env es = some vs → vs.length = es.length := by
  intro es
  induction es with
  | nil => intro vs h; rw [evalArgs] at h; cases h; rfl
  | cons e etl ih =>
    intro vs h
    rw [evalArgs] at h
    cases he : evalExpr o fname env e with
    | none => rw [he] at h; cases h
    | some v =>
      rw [he] at h
      cases htl : evalArgs o fname env etl with
      | none => rw [htl] at h; cases h
      | some ws => rw [htl] at h; cases h; simp [ih ws htl]

/-- Some-preservation order on call oracles. -/
def OracleLeP (o1 o2 : Oracle) : Prop :=
  ∀ vs v, o1 vs = some v → o2 vs = some v

mutual

/-- Expression evaluation is monotone in the oracle. -/
def evalExpr_mono (o1 o2 : Oracle) (h : OracleLeP o1 o2) (fname : String) (env : Env) :
    ∀ (e : Expr) (v : Value),
      evalExpr o1 fname env e = some v → evalExpr o2 fname env e = some v
  | Expr.constant _, _, hv => hv
  | Expr.name _, _, hv => hv
  | Expr.binop l op r, v, hv => by
    simp only [evalExpr] at hv ⊢
    cases hl : evalExpr o1 fname env l with
    | none => rw [hl] at hv; cases hv
    | some a =>
      rw [hl] at hv
      cases hr : evalExpr o1 fname env r with
      | none => rw [hr] at hv; cases hv
      | some b =>
        rw [hr] at hv
        rw [evalExpr_mono o1 o2 h fname env l a hl,
            evalExpr_mono o1 o2 h fname env r b hr]
        exact hv
  | Expr.compare l op r, v, hv => by
    simp only [evalExpr] at hv ⊢
    cases hl : evalExpr o1 fname env l with
    | none => rw [hl] at hv; cases hv
    | some a =>
      rw [hl] at hv
      cases hr : evalExpr o1 fname env r with
      | none => rw [hr] at hv; cases hv
      | some b =>
        rw [hr] at hv
        rw [evalExpr_mono o1 o2 h fname env l a hl,
            evalExpr_mono o1 o2 h fname env r b hr]
        exact hv
  | Expr.call f args, v, hv => by
    simp only [evalExpr] at hv ⊢
    by_cases hf : f = fname
    · rw [if_pos hf] at hv ⊢
      cases ha : evalArgs o1 fname env args with
      | none => rw [ha] at hv; cases hv
      | some vs =>
        rw [ha] at hv
        rw [evalArgs_mono o1 o2 h fname env args vs ha]
        exact h vs v hv
    · rw [if_neg hf] at hv; cases hv
  | Expr.tupleE elts, v, hv => by
    simp only [evalExpr] at hv ⊢
    cases ha : evalArgs o1 fname env elts with
    | none => rw [ha] at hv; cases hv
    | some vs =>
      rw [ha] at hv
      rw [evalArgs_mono o1 o2 h fname env elts vs ha]
      exact hv

/-- Argument-list evaluation is monotone in the oracle. -/
def evalArgs_mono (o1 o2 : Oracle) (h : OracleLeP o1 o2) (fname : String) (env : Env) :
    ∀ (es : List Expr) (vs : List Value),
      evalArgs o1 fname env es = some vs → evalArgs o2 fname env es = some vs
  | [], _, hv => hv
  | e :: es, vs, hv => by
    simp only [evalArgs] at hv ⊢
    cases he : evalExpr o1 fname env e with
    | none => rw [he] at hv; cases hv
    | some a =>
      rw [he] at hv
      cases hes : evalArgs o1 fname env es with
      | none => rw [hes] at hv; cases hv
      | some ws =>
        rw [hes] at hv
        rw [evalExpr_mono o1 o2 h fname env e a he,
            evalArgs_mono o1 o2 h fname env es ws hes]
        exact hv

end

/-- Loop execution is monotone in the iteration budget and in the test and
body semantics. -/
theorem execWhile_mono (t1 t2 : Env → Option Value) (b1 b2 : Env → Option ExecR)
    (ht : ∀ env c, t1 env = some c → t2 env = some c)
    (hb : ∀ env r, b1 env = some r → b2 env = some r) :
    ∀ (k k2 : Nat), k ≤ k2 → ∀ env r,
      execWhile t1 b1 k env = some r → execWhile t2 b2 k2 env = some r := by
  intro k
  induction k with
  | zero => intro k2 _ env r hr; rw [execWhile] at hr; cases hr
  | succ k ih =>
    intro k2 hk env r hr
    obtain ⟨k3, rfl⟩ : ∃ k3, k2 = k3 + 1 := ⟨k2 - 1, by omega⟩
    rw [execWhile] at hr ⊢
    cases hc : t1 env with
    | none => rw [hc] at hr; cases hr
    | some c =>
      rw [hc] at hr
      rw [ht env c hc]
      simp only [] at hr ⊢
      by_cases htr : truthy c = true
      · rw [if_pos htr] at hr ⊢
        cases hbd : b1 env with
        | none => rw [hbd] at hr; cases hr
        | some rr =>
          rw [hbd] at hr
          rw [hb env rr hbd]
          cases rr with
          | next env2 => exact ih k3 (by omega) env2 r hr
          | ret v => exact hr
      · rw [if_neg htr] at hr ⊢
        exact hr

mutual

/-- Statement execution is monotone in the oracle and the loop budget. -/
def execStmt_mono (o1 o2 : Oracle) (h : OracleLeP o1 o2) (fname : String)
    (w1 w2 : Nat) (hw : w1 ≤ w2) :
    ∀ (s : Stmt) (env : Env) (r : ExecR),
      execStmt o1 fname w1 env s = some r → execStmt o2 fname w2 env s = some r
  | Stmt.exprStmt e, env, r, hr => by
    simp only [execStmt] at hr ⊢
    cases he : evalExpr o1 fname env e with
    | none => rw [he] at hr; cases hr
    | some v => rw [he] at hr; rw [evalExpr_mono o1 o2 h fname env e v he]; exact hr
  | Stmt.ret e, env, r, hr => by
    simp only [execStmt] at hr ⊢
    cases he : evalExpr o1 fname env e with
    | none => rw [he] at hr; cases hr
    | some v => rw [he] at hr; rw [evalExpr_mono o1 o2 h fname env e v he]; exact hr
  | Stmt.ifS t b orelse, env, r, hr => by
    simp only [execStmt] at hr ⊢
    cases hc : evalExpr o1 fname env t with
    | none => rw [hc] at hr; cases hr
    | some c =>
      rw [hc] at hr
      rw [evalExpr_mono o1 o2 h fname env t c hc]
      simp only [] at hr ⊢
      by_cases htr : truthy c = true
      · rw [if_pos htr] at hr ⊢
        exact execStmts_mono o1 o2 h fname w1 w2 hw b env r hr
      · rw [if_neg htr] at hr ⊢
        exact execStmts_mono o1 o2 h fname w1 w2 hw orelse env r hr
  | Stmt.assign tgt e, env, r, hr => by
    simp only [execStmt] at hr ⊢
    cases he : evalExpr o1 fname env e with
    | none => rw [he] at hr; cases hr
    | some v => rw [he] at hr; rw [evalExpr_mono o1 o2 h fname env e v he]; exact hr
  | Stmt.whileS t b, env, r, hr => by
    simp only [execStmt] at hr ⊢
    exact execWhile_mono _ _ _ _
      (fun env2 c hc => evalExpr_mono o1 o2 h fname env2 t c hc)
      (fun env2 rr hrr => execStmts_mono o1 o2 h fname w1 w2 hw b env2 rr hrr)
      w1 w2 hw env r hr
  | Stmt.matchS subj cases, env, r, hr => by
    simp only [execStmt] at hr ⊢
    cases hs : evalExpr o1 fname env subj with
    | none => rw [hs] at hr; cases hr
    | some sv =>
      rw [hs] at hr
      rw [evalExpr_mono o1 o2 h fname env subj sv hs]
      exact execCases_mono o1 o2 h fname w1 w2 hw cases env sv r hr

/-- Statement-list execution is monotone in the oracle and the loop budget. -/
def execStmts_mono (o1 o2 : Oracle) (h : OracleLeP o1 o2) (fname : String)
    (w1 w2 : Nat) (hw : w1 ≤ w2) :
    ∀ (ss : List Stmt) (env : Env) (r : ExecR),
      execStmts o1 fname w1 env ss = some r → execStmts o2 fname w2 env ss = some r
  | [], _, _, hr => hr
  | s :: rest, env, r, hr => by
    simp only [execStmts] at hr ⊢
    cases hs : execStmt o1 fname w1 env s with
    | none => rw [hs] at hr; cases hr
    | some rr =>
      rw [hs] at hr
      rw [execStmt_mono o1 o2 h fname w1 w2 hw s env rr hs]
      cases rr with
      | next env2 => exact execStmts_mono o1 o2 h fname w1 w2 hw rest env2 r hr
      | ret v => exact hr

/-- Match-arm execution is monotone in the oracle and the loop budget. -/
def execCases_mono (o1 o2 : Oracle) (h : OracleLeP o1 o2) (fname : String)
    (w1 w2 : Nat) (hw : w1 ≤ w2) :
    ∀ (cs : List (Pat × List Stmt)) (env : Env) (v : Value) (r : ExecR),
      execCases o1 fname w1 env v cs = some r → execCases o2 fname w2 env v cs = some r
  | [], _, _, _, hr => hr
  | (p, body) :: rest, env, v, r, hr => by
    simp only [execCases] at hr ⊢
    by_cases hm : matchPat p v = true
    · rw [if_pos hm] at hr ⊢
      exact execStmts_mono o1 o2 h fname w1 w2 hw body env r hr
    · rw [if_neg hm] at hr ⊢
      exact execCases_mono o1 o2 h fname w1 w2 hw rest env v r hr

end

/-- Function calls are monotone in fuel. -/
theorem callFunc_mono (fn : FuncDef) :
    ∀ (F F2 : Nat), F ≤ F2 → ∀ argv v,
      callFunc fn F argv = some v → callFunc fn F2 argv = some v := by
  intro F
  induction F with
  | zero => intro F2 _ argv v hv; rw [callFunc] at hv; cases hv
  | succ F ih =>
    intro F2 hF argv v hv
    obtain ⟨F3, rfl⟩ : ∃ F3, F2 = F3 + 1 := ⟨F2 - 1, by omega⟩
    rw [callFunc] at hv ⊢
    cases hb : bindParams fn.args fn.defaults argv with
    | none => rw [hb] at hv; cases hv
    | some env =>
      rw [hb] at hv
      simp only [] at hv ⊢
      cases he : execStmts (fun vs => callFunc fn F vs) fn.name F env fn.body with
      | none => rw [he] at hv; cases hv
      | some r =>
        rw [he] at hv
        rw [execStmts_mono (fun vs => callFunc fn F vs) (fun vs => callFunc fn F3 vs)
          (fun vs u hu => ih F3 (by omega) vs u hu) fn.name F F3 (by omega)
          fn.body env r he]
        exact hv

/-- An oracle refines the call semantics of a function `fn2` when every
answer it gives is also produced by `fn2` at some fuel. -/
def OracleToCalls (o1 : Oracle) (fn2 : FuncDef) : Prop :=
  ∀ vs v, o1 vs = some v → ∃ g, callFunc fn2 g vs = some v

theorem oracleLe_of_le (fn2 : FuncDef) (g1 g2 : Nat) (h : g1 ≤ g2) :
    OracleLeP (fun vs => callFunc fn2 g1 vs) (fun vs => callFunc fn2 g2 vs) :=
  fun vs v hv => callFunc_mono fn2 g1 g2 h vs v hv

mutual

/-- An expression that evaluates under an oracle refining `fn2` also
evaluates, with the same result, under `fn2`-calls at some fuel. -/
def evalExpr_transfer (o1 : Oracle) (fn2 : FuncDef) (h : OracleToCalls o1 fn2)
    (fname : String) (env : Env) :
    ∀ (e : Expr) (v : Value), evalExpr o1 fname env e = some v →
      ∃ g, evalExpr (fun vs => callFunc fn2 g vs) fname env e = some v
  | Expr.constant _, _, hv => ⟨0, hv⟩
  | Expr.name _, _, hv => ⟨0, hv⟩
  | Expr.binop l op r, v, hv => by
    simp only [evalExpr] at hv ⊢
    cases hl : evalExpr o1 fname env l with
    | none => rw [hl] at hv; cases hv
    | some a =>
      rw [hl] at hv
      cases hrr : evalExpr o1 fname env r with
      | none => rw [hrr] at hv; cases hv
      | some b =>
        rw [hrr] at hv
        obtain ⟨g1, h1⟩ := evalExpr_transfer o1 fn2 h fname env l a hl
        obtain ⟨g2, h2⟩ := evalExpr_transfer o1 fn2 h fname env r b hrr
        refine ⟨max g1 g2, ?_⟩
        rw [evalExpr_mono _ _ (oracleLe_of_le fn2 g1 _ (le_max_left g1 g2)) fname env l a h1,
          evalExpr_mono _ _ (oracleLe_of_le fn2 g2 _ (le_max_right g1 g2)) fname env r b h2]
        exact hv
  | Expr.compare l op r, v, hv => by
    simp only [evalExpr] at hv ⊢
    cases hl : evalExpr o1 fname env l with
    | none => rw [hl] at hv; cases hv
    | some a =>
      rw [hl] at hv
      cases hrr : evalExpr o1 fname env r with
      | none => rw [hrr] at hv; cases hv
      | some b =>
        rw [hrr] at hv
        obtain ⟨g1, h1⟩ := evalExpr_transfer o1 fn2 h fname env l a hl
        obtain ⟨g2, h2⟩ := evalExpr_transfer o1 fn2 h fname env r b hrr
        refine ⟨max g1 g2, ?_⟩
        rw [evalExpr_mono _ _ (oracleLe_of_le fn2 g1 _ (le_max_left g1 g2)) fname env l a h1,
          evalExpr_mono _ _ (oracleLe_of_le fn2 g2 _ (le_max_right g1 g2)) fname env r b h2]
        exact hv
  | Expr.call f args, v, hv => by
    simp only [evalExpr] at hv ⊢
    by_cases hf : f = fname
    · rw [if_pos hf] at hv
      simp only [if_pos hf]
      cases ha : evalArgs o1 fname env args with
      | none => rw [ha] at hv; cases hv
      | some vs =>
        rw [ha] at hv
        obtain ⟨g1, h1⟩ := evalArgs_transfer o1 fn2 h fname env args vs ha
        obtain ⟨g2, h2⟩ := h vs v hv
        refine ⟨max g1 g2, ?_⟩
        rw [evalArgs_mono _ _ (oracleLe_of_le fn2 g1 _ (le_max_left g1 g2)) fname env args vs h1]
        exact callFunc_mono fn2 g2 _ (le_max_right g1 g2) vs v h2
    · rw [if_neg hf] at hv; cases hv
  | Expr.tupleE elts, v, hv => by
    simp only [evalExpr] at hv ⊢
    cases ha : evalArgs o1 fname env elts with
    | none => rw [ha] at hv; cases hv
    | some vs =>
      rw [ha] at hv
      obtain ⟨g1, h1⟩ := evalArgs_transfer o1 fn2 h fname env elts vs ha
      refine ⟨g1, ?_⟩
      rw [h1]
      exact hv

/-- Argument lists transfer from a refining oracle to `fn2`-calls. -/
def evalArgs_transfer (o1 : Oracle) (fn2 : FuncDef) (h : OracleToCalls o1 fn2)
    (fname : String) (env : Env) :
    ∀ (es : List Expr) (vs : List Value), evalArgs o1 fname env es = some vs →
      ∃ g, evalArgs (fun ws => callFunc fn2 g ws) fname env es = some vs
  | [], _, hv => ⟨0, hv⟩
  | e :: es, vs, hv => by
    simp only [evalArgs] at hv ⊢
    cases he : evalExpr o1 fname env e with
    | none => rw [he] at hv; cases hv
    | some a =>
      rw [he] at hv
      cases hes : evalArgs o1 fname env es with
      | none => rw [hes] at hv; cases hv
      | some ws =>
        rw [hes] at hv
        obtain ⟨g1, h1⟩ := evalExpr_transfer o1 fn2 h fname env e a he
        obtain ⟨g2, h2⟩ := evalArgs_transfer o1 fn2 h fname env es ws hes
        refine ⟨max g1 g2, ?_⟩
        rw [evalExpr_mono _ _ (oracleLe_of_le fn2 g1 _ (le_max_left g1 g2)) fname env e a h1,
          evalArgs_mono _ _ (oracleLe_of_le fn2 g2 _ (le_max_right g1 g2)) fname env es ws h2]
        exact hv

end

/-- Loop execution transfers along fuel-indexed monotone test and body
families. -/
theorem execWhile_transfer (t1 : Env → Option Value) (b1 : Env → Option ExecR)
    (t2 : Nat → Env → Option Value) (b2 : Nat → Env → Option ExecR)
    (ht : ∀ env c, t1 env = some c → ∃ g, t2 g env = some c)
    (hb : ∀ env r, b1 env = some r → ∃ g, b2 g env = some r)
    (hmt : ∀ g g2, g ≤ g2 → ∀ env c, t2 g env = some c → t2 g2 env = some c)
    (hmb : ∀ g g2, g ≤ g2 → ∀ env r, b2 g env = some r → b2 g2 env = some r) :
    ∀ (k : Nat) (env : Env) (r : ExecR), execWhile t1 b1 k env = some r →
      ∃ g, execWhile (t2 g) (b2 g) k env = some r := by
  intro k
  induction k with
  | zero => intro env r hr; rw [execWhile] at hr; cases hr
  | succ k ih =>
    intro env r hr
    rw [execWhile] at hr
    cases hc : t1 env with
    | none => rw [hc] at hr; cases hr
    | some c =>
      rw [hc] at hr
      simp only [] at hr
      obtain ⟨gt, hgt⟩ := ht env c hc
      by_cases htr : truthy c = true
      · rw [if_pos htr] at hr
        cases hbd : b1 env with
        | none => rw [hbd] at hr; cases hr
        | some rr =>
          rw [hbd] at hr
          obtain ⟨gb, hgb⟩ := hb env rr hbd
          cases rr with
          | next env2 =>
            obtain ⟨gk, hgk⟩ := ih env2 r hr
            refine ⟨max gt (max gb gk), ?_⟩
            rw [execWhile, hmt gt _ (le_max_left _ _) env c hgt]
            simp only []
            rw [if_pos htr,
              hmb gb _ (le_trans (le_max_left gb gk) (le_max_right gt _)) env _ hgb]
            exact execWhile_mono _ _ _ _
              (hmt (max gt (max gb gk)) _ (le_refl _))
              (hmb (max gt (max gb gk)) _ (le_refl _)) k k (le_refl k) env2 r
              (execWhile_mono _ _ _ _
                (hmt gk _ (le_trans (le_max_right gb gk) (le_max_right gt _)))
                (hmb gk _ (le_trans (le_max_right gb gk) (le_max_right gt _)))
                k k (le_refl k) env2 r hgk)
          | ret v =>
            refine ⟨max gt gb, ?_⟩
            rw [execWhile, hmt gt _ (le_max_left _ _) env c hgt]
            simp only []
            rw [if_pos htr, hmb gb _ (le_max_right gt gb) env _ hgb]
            exact hr
      · rw [if_neg htr] at hr
        refine ⟨gt, ?_⟩
        rw [execWhile, hgt]
        simp only []
        rw [if_neg htr]
        exact hr

mutual

/-- A statement that executes under an oracle refining `fn2` also executes,
with the same result, under `fn2`-calls at some fuel. -/
def execStmt_transfer (o1 : Oracle) (fn2 : FuncDef) (h : OracleToCalls o1 fn2)
    (fname : String) (w : Nat) :
    ∀ (s : Stmt) (env : Env) (r : ExecR), execStmt o1 fname w env s = some r →
      ∃ g, execStmt (fun vs => callFunc fn2 g vs) fname w env s = some r
  | Stmt.exprStmt e, env, r, hr => by
    simp only [execStmt] at hr ⊢
    cases he : evalExpr o1 fname env e with
    | none => rw [he] at hr; cases hr
    | some v =>
      rw [he] at hr
      obtain ⟨g, hg⟩ := evalExpr_transfer o1 fn2 h fname env e v he
      exact ⟨g, by rw [hg]; exact hr⟩
  | Stmt.ret e, env, r, hr => by
    simp only [execStmt] at hr ⊢
    cases he : evalExpr o1 fname env e with
    | none => rw [he] at hr; cases hr
    | some v =>
      rw [he] at hr
      obtain ⟨g, hg⟩ := evalExpr_transfer o1 fn2 h fname env e v he
      exact ⟨g, by rw [hg]; exact hr⟩
  | Stmt.ifS t b orelse, env, r, hr => by
    simp only [execStmt] at hr ⊢
    cases hc : evalExpr o1 fname env t with
    | none => rw [hc] at hr; cases hr
    | some c =>
      rw [hc] at hr
      simp only [] at hr
      obtain ⟨gt, hgt⟩ := evalExpr_transfer o1 fn2 h fname env t c hc
      by_cases htr : truthy c = true
      · rw [if_pos htr] at hr
        obtain ⟨gb, hgb⟩ := execStmts_transfer o1 fn2 h fname w b env r hr
        refine ⟨max gt gb, ?_⟩
        rw [evalExpr_mono _ _ (oracleLe_of_le fn2 gt _ (le_max_left gt gb)) fname env t c hgt]
        simp only []
        rw [if_pos htr]
        exact execStmts_mono _ _ (oracleLe_of_le fn2 gb _ (le_max_right gt gb))
          fname w w (le_refl w) b env r hgb
      · rw [if_neg htr] at hr
        obtain ⟨gb, hgb⟩ := execStmts_transfer o1 fn2 h fname w orelse env r hr
        refine ⟨max gt gb, ?_⟩
        rw [evalExpr_mono _ _ (oracleLe_of_le fn2 gt _ (le_max_left gt gb)) fname env t c hgt]
        simp only []
        rw [if_neg htr]
        exact execStmts_mono _ _ (oracleLe_of_le fn2 gb _ (le_max_right gt gb))
          fname w w (le_refl w) orelse env r hgb
  | Stmt.assign tgt e, env, r, hr => by
    simp only [execStmt] at hr ⊢
    cases he : evalExpr o1 fname env e with
    | none => rw [he] at hr; cases hr
    | some v =>
      rw [he] at hr
      obtain ⟨g, hg⟩ := evalExpr_transfer o1 fn2 h fname env e v he
      exact ⟨g, by rw [hg]; exact hr⟩
  | Stmt.whileS t b, env, r, hr => by
    simp only [execStmt] at hr ⊢
    exact execWhile_transfer
      (fun env2 => evalExpr o1 fname env2 t)
      (fun env2 => execStmts o1 fname w env2 b)
      (fun g env2 => evalExpr (fun vs => callFunc fn2 g vs) fname env2 t)
      (fun g env2 => execStmts (fun vs => callFunc fn2 g vs) fname w env2 b)
      (fun env2 c hc => evalExpr_transfer o1 fn2 h fname env2 t c hc)
      (fun env2 rr hrr => execStmts_transfer o1 fn2 h fname w b env2 rr hrr)
      (fun g g2 hg env2 c hc =>
        evalExpr_mono _ _ (oracleLe_of_le fn2 g g2 hg) fname env2 t c hc)
      (fun g g2 hg env2 rr hrr =>
        execStmts_mono _ _ (oracleLe_of_le fn2 g g2 hg) fname w w (le_refl w) b env2 rr hrr)
      w env r hr
  | Stmt.matchS subj cases, env, r, hr => by
    simp only [execStmt] at hr ⊢
    cases hs : evalExpr o1 fname env subj with
    | none => rw [hs] at hr; cases hr
    | some sv =>
      rw [hs] at hr
      obtain ⟨gs, hgs⟩ := evalExpr_transfer o1 fn2 h fname env subj sv hs
      obtain ⟨gc, hgc⟩ := execCases_transfer o1 fn2 h fname w cases env sv r hr
      refine ⟨max gs gc, ?_⟩
      rw [evalExpr_mono _ _ (oracleLe_of_le fn2 gs _ (le_max_left gs gc)) fname env subj sv hgs]
      exact execCases_mono _ _ (oracleLe_of_le fn2 gc _ (le_max_right gs gc))
        fname w w (le_refl w) cases env sv r hgc

/-- Statement lists transfer from a refining oracle to `fn2`-calls. -/
def execStmts_transfer (o1 : Oracle) (fn2 : FuncDef) (h : OracleToCalls o1 fn2)
    (fname : String) (w : Nat) :
    ∀ (ss : List Stmt) (env : Env) (r : ExecR), execStmts o1 fname w env ss = some r →
      ∃ g, execStmts (fun vs => callFunc fn2 g vs) fname w env ss = some r
  | [], _, _, hr => ⟨0, hr⟩
  | s :: rest, env, r, hr => by
    simp only [execStmts] at hr ⊢
    cases hs : execStmt o1 fname w env s with
    | none => rw [hs] at hr; cases hr
    | some rr =>
      rw [hs] at hr
      obtain ⟨g1, h1⟩ := execStmt_transfer o1 fn2 h fname w s env rr hs
      cases rr with
      | next env2 =>
        obtain ⟨g2, h2⟩ := execStmts_transfer o1 fn2 h fname w rest env2 r hr
        refine ⟨max g1 g2, ?_⟩
        rw [execStmt_mono _ _ (oracleLe_of_le fn2 g1 _ (le_max_left g1 g2))
          fname w w (le_refl w) s env _ h1]
        exact execStmts_mono _ _ (oracleLe_of_le fn2 g2 _ (le_max_right g1 g2))
          fname w w (le_refl w) rest env2 r h2
      | ret v =>
        refine ⟨g1, ?_⟩
        rw [execStmt_mono _ _ (oracleLe_of_le fn2 g1 _ (le_refl g1))
          fname w w (le_refl w) s env _ h1]
        exact hr

/-- Match arms transfer from a refining oracle to `fn2`-calls. -/
def execCases_transfer (o1 : Oracle) (fn2 : FuncDef) (h : OracleToCalls o1 fn2)
    (fname : String) (w : Nat) :
    ∀ (cs : List (Pat × List Stmt)) (env : Env) (sv : Value) (r : ExecR),
      execCases o1 fname w env sv cs = some r →
      ∃ g, execCases (fun vs => callFunc fn2 g vs) fname w env sv cs = some r
  | [], _, _, _, hr => ⟨0, hr⟩
  | (p, body) :: rest, env, sv, r, hr => by
    simp only [execCases] at hr ⊢
    by_cases hm : matchPat p sv = true
    · rw [if_pos hm] at hr
      obtain ⟨g, hg⟩ := execStmts_transfer o1 fn2 h fname w body env r hr
      exact ⟨g, by rw [if_pos hm]; exact hg⟩
    · rw [if_neg hm] at hr
      obtain ⟨g, hg⟩ := execCases_transfer o1 fn2 h fname w rest env sv r hr
      exact ⟨g, by rw [if_neg hm]; exact hg⟩

end

/-- The guarded tail-recursive shape the if-transformer accepts, as a
function definition: an uninspected leading statement `d` (the docstring
slot), the guard, and the self tail call. -/
def guardOrig (nm : String) (params : List String) (defaults : List Value)
    (d : Stmt) (test baseE : Expr) (targs : List Expr) : FuncDef :=
  { name := nm, args := params, defaults := defaults,
    body := [d,
             Stmt.ifS test [Stmt.ret baseE] [],
             Stmt.ret (Expr.call nm targs)] }

/-- The loop form the if-transformer produces for the guarded shape. -/
def guardLoop (nm : String) (params : List String) (defaults : List Value)
    (test baseE : Expr) (targs : List Expr) : FuncDef :=
  { name := nm, args := params, defaults := defaults,
    body := [Stmt.whileS (Expr.constant (Value.bool true))
      [Stmt.ifS test [Stmt.ret baseE] [],
       Stmt.assign (Target.ttuple params) (Expr.tupleE targs)]] }

/-- Exact characterization of `_maybe_transform_if_tail_recursion`: it
succeeds precisely on three-statement bodies whose first statement is
arbitrary (and dropped), whose second is a single-return guard without
`else`, and whose third is a self tail call of matching arity; the result is
the `while True` loop body. -/
theorem maybe_transform_if_characterization (fn : FuncDef) (nb : List Stmt) :
    maybe_transform_if_tail_recursion fn = some nb ↔
    ∃ (d : Stmt) (test baseE : Expr) (targs : List Expr),
      fn.body = [d, Stmt.ifS test [Stmt.ret baseE] [],
                 Stmt.ret (Expr.call fn.name targs)] ∧
      targs.length = fn.args.length ∧
      nb = [Stmt.whileS (Expr.constant (Value.bool true))
        [Stmt.ifS test [Stmt.ret baseE] [],
         Stmt.assign (Target.ttuple fn.args) (Expr.tupleE targs)]] := by
  constructor
  · intro h
    unfold maybe_transform_if_tail_recursion at h
    split at h
    case _ d test ifBody orelse retVal heq =>
      split at h
      case _ baseE =>
        split at h
        case _ f targs =>
          by_cases hf : f = fn.name
          · rw [if_pos hf] at h
            unfold make_assignment_from_call at h
            split at h
            next asn hasn =>
              split at hasn
              next hlen =>
                cases hasn
                refine ⟨d, test, baseE, targs, ?_, hlen, ?_⟩
                · rw [heq, hf]
                · cases h; rfl
              next hlen => cases hasn
            next hasn => cases h
          · rw [if_neg hf] at h; cases h
        case _ hne => cases h
      case _ hne => cases h
    case _ hne => cases h
  · rintro ⟨d, test, baseE, targs, hbody, hlen, hnb⟩
    unfold maybe_transform_if_tail_recursion make_assignment_from_call
    rw [hbody, hnb]
    simp [hlen]

/-- A `while True` loop can stop only through a `return`: it never completes
normally. -/
theorem execWhile_constTrue_no_next (o : Oracle) (fname : String) (b : List Stmt)
    (w : Nat) :
    ∀ (k : Nat) (env : Env) (r : ExecR),
      execWhile (fun env2 => evalExpr o fname env2 (Expr.constant (Value.bool true)))
        (fun env2 => execStmts o fname w env2 b) k env = some r →
      ∃ u, r = ExecR.ret u := by
  intro k
  induction k with
  | zero => intro env r hr; rw [execWhile] at hr; cases hr
  | succ k ih =>
    intro env r hr
    rw [execWhile] at hr
    simp only [evalExpr, truthy, if_pos] at hr
    cases hbd : execStmts o fname w env b with
    | none => rw [hbd] at hr; cases hr
    | some rr =>
      rw [hbd] at hr
      cases rr with
      | next env2 => exact ih env2 r hr
      | ret u => cases hr; exact ⟨u, rfl⟩

theorem tail_recursive_guard (nm : String) (params : List String) (defaults : List Value)
    (d : Stmt) (test baseE : Expr) (targs : List Expr)
    (hlen : targs.length = params.length) :
    tail_recursive (guardOrig nm params defaults d test baseE targs) =
      guardLoop nm params defaults test baseE targs := by
  unfold tail_recursive
  rw [(maybe_transform_if_characterization (guardOrig nm params defaults d test baseE targs)
    _).mpr ⟨d, test, baseE, targs, rfl, hlen, rfl⟩]
  rfl

theorem bindParams_outside (params : List String) (defaults : List Value)
    (args : List Value) (env0 : Env) (h : bindParams params defaults args = some env0) :
    ∀ s, ¬ s ∈ params → env0 s = none := by
  unfold bindParams at h
  split at h
  · cases h
    intro s hs
    exact Env.setMany_outside _ params _ s hs
  · cases h

/-- Inversion of a successful call to the synthesized loop function: the
fuel is positive and the loop itself returns the value from the
parameter-bound environment. -/
theorem guardLoop_call_inv (nm : String) (params : List String) (defaults : List Value)
    (test baseE : Expr) (targs : List Expr) (g0 : Nat) (vs : List Value) (u : Value)
    (hlen2 : vs.length = params.length)
    (h : callFunc (guardLoop nm params defaults test baseE targs) g0 vs = some u) :
    ∃ g1, g0 = g1 + 1 ∧
      execWhile
        (fun env2 => evalExpr
          (fun ws => callFunc (guardLoop nm params defaults test baseE targs) g1 ws)
          nm env2 (Expr.constant (Value.bool true)))
        (fun env2 => execStmts
          (fun ws => callFunc (guardLoop nm params defaults test baseE targs) g1 ws)
          nm g1 env2
          [Stmt.ifS test [Stmt.ret baseE] [],
           Stmt.assign (Target.ttuple params) (Expr.tupleE targs)])
        g1 (Env.setMany (fun _ => none) params vs) = some (ExecR.ret u) := by
  cases g0 with
  | zero => rw [callFunc] at h; cases h
  | succ g1 =>
    refine ⟨g1, rfl, ?_⟩
    rw [callFunc] at h
    have hTargs : (guardLoop nm params defaults test baseE targs).args = params := rfl
    have hTdef : (guardLoop nm params defaults test baseE targs).defaults = defaults := rfl
    have hTname : (guardLoop nm params defaults test baseE targs).name = nm := rfl
    have hTbody : (guardLoop nm params defaults test baseE targs).body =
      [Stmt.whileS (Expr.constant (Value.bool true))
        [Stmt.ifS test [Stmt.ret baseE] [],
         Stmt.assign (Target.ttuple params) (Expr.tupleE targs)]] := rfl
    rw [hTargs, hTdef, hTname, hTbody, bindParams_exact params defaults vs hlen2] at h
    simp only [] at h
    rw [execStmts, execStmt] at h
    cases hw : execWhile
        (fun env2 => evalExpr
          (fun ws => callFunc (guardLoop nm params defaults test baseE targs) g1 ws)
          nm env2 (Expr.constant (Value.bool true)))
        (fun env2 => execStmts
          (fun ws => callFunc (guardLoop nm params defaults test baseE targs) g1 ws)
          nm g1 env2
          [Stmt.ifS test [Stmt.ret baseE] [],
           Stmt.assign (Target.ttuple params) (Expr.tupleE targs)])
        g1 (Env.setMany (fun _ => none) params vs) with
    | none => rw [hw] at h; cases h
    | some rr =>
      rw [hw] at h
      obtain ⟨w, hwr⟩ := execWhile_constTrue_no_next _ nm _ g1 g1 _ rr hw
      subst hwr
      simp only [] at h
      rw [Option.some.inj h]

theorem guard_sim (nm : String) (params : List String) (defaults : List Value)
    (dv : Value) (test baseE : Expr) (targs : List Expr)
    (hlen : targs.length = params.length) :
    ∀ (F : Nat) (argv : List Value) (v : Value),
      callFunc (guardOrig nm params defaults (Stmt.exprStmt (Expr.constant dv))
        test baseE targs) F argv = some v →
      ∃ G, callFunc (guardLoop nm params defaults test baseE targs) G argv = some v := by
  intro F
  induction F with
  | zero => intro argv v hv; rw [callFunc] at hv; cases hv
  | succ F ih =>
    intro argv v hv
    set fnO := guardOrig nm params defaults (Stmt.exprStmt (Expr.constant dv)) test baseE targs
      with hfnO
    set fnT := guardLoop nm params defaults test baseE targs with hfnT
    have hOargs : fnO.args = params := rfl
    have hOdef : fnO.defaults = defaults := rfl
    have hOname : fnO.name = nm := rfl
    have hObody : fnO.body = [Stmt.exprStmt (Expr.constant dv),
      Stmt.ifS test [Stmt.ret baseE] [], Stmt.ret (Expr.call nm targs)] := rfl
    have hTargs : fnT.args = params := rfl
    have hTdef : fnT.defaults = defaults := rfl
    have hTname : fnT.name = nm := rfl
    have hTbody : fnT.body = [Stmt.whileS (Expr.constant (Value.bool true))
      [Stmt.ifS test [Stmt.ret baseE] [],
       Stmt.assign (Target.ttuple params) (Expr.tupleE targs)]] := rfl
    have hoc : OracleToCalls (fun vs => callFunc fnO F vs) fnT := fun vs u hu => ih vs u hu
    rw [callFunc, hOargs, hOdef, hOname, hObody] at hv
    cases hb : bindParams params defaults argv with
    | none => rw [hb] at hv; cases hv
    | some env0 =>
      rw [hb] at hv
      simp only [] at hv
      simp only [execStmts, execStmt, evalExpr] at hv
      cases hc : evalExpr (fun vs => callFunc fnO F vs) nm env0 test with
      | none => rw [hc] at hv; cases hv
      | some c =>
        rw [hc] at hv
        simp only [] at hv
        obtain ⟨gt, hgt⟩ := evalExpr_transfer _ fnT hoc nm env0 test c hc
        by_cases htr : truthy c = true
        · rw [if_pos htr] at hv
          cases hbase : evalExpr (fun vs => callFunc fnO F vs) nm env0 baseE with
          | none => rw [hbase] at hv; cases hv
          | some u =>
            rw [hbase] at hv
            simp only [] at hv
            have huv := Option.some.inj hv
            subst huv
            obtain ⟨gb, hgb⟩ := evalExpr_transfer _ fnT hoc nm env0 baseE u hbase
            refine ⟨Nat.succ (Nat.succ (max gt gb)), ?_⟩
            rw [callFunc, hTargs, hTdef, hTname, hTbody, hb]
            simp only []
            simp only [execStmts, execStmt]
            rw [execWhile]
            simp only [evalExpr, reduceIte]
            have hgt2 : evalExpr (fun vs => callFunc fnT (Nat.succ (max gt gb)) vs)
                nm env0 test = some c :=
              evalExpr_mono _ _ (oracleLe_of_le fnT gt _ (by omega)) nm env0 test c hgt
            have hgb2 : evalExpr (fun vs => callFunc fnT (Nat.succ (max gt gb)) vs)
                nm env0 baseE = some u :=
              evalExpr_mono _ _ (oracleLe_of_le fnT gb _ (by omega)) nm env0 baseE u hgb
            rw [hgt2]
            simp only [if_pos htr]
            rw [hgb2]
            rfl
        · rw [if_neg htr] at hv
          simp only [if_true] at hv
          cases hargs : evalArgs (fun vs => callFunc fnO F vs) nm env0 targs with
          | none => rw [hargs] at hv; cases hv
          | some vs =>
            rw [hargs] at hv
            simp only [] at hv
            cases hcall : callFunc fnO F vs with
            | none => rw [hcall] at hv; cases hv
            | some u =>
              rw [hcall] at hv
              simp only [] at hv
              have huv := Option.some.inj hv
              subst huv
              have hlen2 : vs.length = params.length := by
                rw [evalArgs_length _ nm env0 targs vs hargs, hlen]
              obtain ⟨g0, hg0⟩ := ih vs u hcall
              obtain ⟨ga, hga⟩ := evalArgs_transfer _ fnT hoc nm env0 targs vs hargs
              obtain ⟨g1, hg01, hrun⟩ :=
                guardLoop_call_inv nm params defaults test baseE targs g0 vs u hlen2 hg0
              refine ⟨Nat.succ (Nat.succ (max gt (max ga g1))), ?_⟩
              rw [callFunc, hTargs, hTdef, hTname, hTbody, hb]
              simp only []
              rw [execStmts, execStmt, execWhile]
              simp only [evalExpr, truthy, reduceIte]
              have hgt3 : evalExpr
                  (fun vs => callFunc fnT (Nat.succ (max gt (max ga g1))) vs)
                  nm env0 test = some c :=
                evalExpr_mono _ _ (oracleLe_of_le fnT gt _ (by omega)) nm env0 test c hgt
              have hga3 : evalArgs
                  (fun vs => callFunc fnT (Nat.succ (max gt (max ga g1))) vs)
                  nm env0 targs = some vs :=
                evalArgs_mono _ _ (oracleLe_of_le fnT ga _ (by omega)) nm env0 targs vs hga
              have henv1 : Env.setMany env0 params vs =
                  Env.setMany (fun _ => none) params vs :=
                Env.setMany_congr _ _ _ _
                  (fun s hs => bindParams_outside params defaults argv env0 hb s hs)
                  hlen2.symm
              have hbody : execStmts
                  (fun vs => callFunc fnT (Nat.succ (max gt (max ga g1))) vs) nm
                  (Nat.succ (max gt (max ga g1))) env0
                  [Stmt.ifS test [Stmt.ret baseE] [],
                   Stmt.assign (Target.ttuple params) (Expr.tupleE targs)] =
                  some (ExecR.next (Env.setMany env0 params vs)) := by
                rw [execStmts, execStmt, hgt3]
                simp only [if_neg htr]
                rw [execStmts]
                simp only []
                rw [execStmts, execStmt]
                simp only [evalExpr]
                rw [hga3]
                simp only [execAssign, if_pos hlen2]
                rw [execStmts]
              rw [hbody]
              simp only []
              rw [henv1]
              have hfin := execWhile_mono
                (fun env2 => evalExpr (fun ws => callFunc fnT g1 ws) nm env2
                  (Expr.constant (Value.bool true)))
                (fun env2 => some (Value.bool true))
                (fun env2 => execStmts (fun ws => callFunc fnT g1 ws) nm g1 env2
                  [Stmt.ifS test [Stmt.ret baseE] [],
                   Stmt.assign (Target.ttuple params) (Expr.tupleE targs)])
                (fun env2 => execStmts
                  (fun ws => callFunc fnT (Nat.succ (max gt (max ga g1))) ws) nm
                  (Nat.succ (max gt (max ga g1))) env2
                  [Stmt.ifS test [Stmt.ret baseE] [],
                   Stmt.assign (Target.ttuple params) (Expr.tupleE targs)])
                (fun env2 c2 hc2 => hc2)
                (fun env2 r2 hr2 => execStmts_mono _ _
                  (oracleLe_of_le fnT g1 _ (by omega)) nm g1 _ (by omega) _ env2 r2 hr2)
                g1 (max gt (max ga g1)) (by omega) _ _ hrun
              rw [hfin]

/-- The dispatch tail-recursive shape the match-transformer accepts. -/
def matchOrig (nm : String) (params : List String) (defaults : List Value)
    (d : Stmt) (subj : Expr) (cases : List (Pat × List Stmt)) : FuncDef :=
  { name := nm, args := params, defaults := defaults,
    body := [d, Stmt.matchS subj cases] }

/-- Replace the body of every tail-call arm by the rebinding assignment, as
the match-transformer does to the unique such arm. -/
def replaceTail (nm : String) (asn : Stmt) (cases : List (Pat × List Stmt)) :
    List (Pat × List Stmt) :=
  cases.map (fun c => if is_tail_call_case nm c then (c.1, [asn]) else c)

/-- The loop form the match-transformer produces. -/
def matchLoop (nm : String) (params : List String) (defaults : List Value)
    (subj : Expr) (cases2 : List (Pat × List Stmt)) : FuncDef :=
  { name := nm, args := params, defaults := defaults,
    body := [Stmt.whileS (Expr.constant (Value.bool true)) [Stmt.matchS subj cases2]] }

/-- Exact characterization of `_maybe_transform_match_tail_recursion`: it
succeeds precisely on two-statement bodies whose first statement is
arbitrary (and dropped) and whose second is a `match` with exactly one
tail-call arm whose call has matching arity; the result wraps the match,
with that arm's body replaced by the rebinding, in `while True`. -/
theorem maybe_transform_match_characterization (fn : FuncDef) (nb : List Stmt) :
    maybe_transform_match_tail_recursion fn = some nb ↔
    ∃ (d : Stmt) (subj : Expr) (cases : List (Pat × List Stmt)) (tc : Pat × List Stmt),
      fn.body = [d, Stmt.matchS subj cases] ∧
      cases.filter (is_tail_call_case fn.name) = [tc] ∧
      (tail_call_args_of tc).length = fn.args.length ∧
      nb = [Stmt.whileS (Expr.constant (Value.bool true))
        [Stmt.matchS subj (replaceTail fn.name
          (Stmt.assign (Target.ttuple fn.args) (Expr.tupleE (tail_call_args_of tc)))
          cases)]] := by
  constructor
  · intro h
    unfold maybe_transform_match_tail_recursion at h
    split at h
    case _ d subj cases heq =>
      split at h
      case _ tc hfil =>
        unfold make_assignment_from_call at h
        split at h
        next asn hasn =>
          split at hasn
          next hl =>
            cases hasn
            exact ⟨d, subj, cases, tc, heq, hfil, hl, by cases h; rfl⟩
          next hl => cases hasn
        next hasn => cases h
      case _ hne => cases h
    case _ hne => cases h
  · rintro ⟨d, subj, cases, tc, hbody, hfil, hl, hnb⟩
    unfold maybe_transform_match_tail_recursion make_assignment_from_call
    rw [hbody, hnb]
    simp only []
    rw [hfil]
    simp only [if_pos hl]
    rfl

/-- A tail-call arm is a single `return` of a self call whose arguments are
`tail_call_args_of` it. -/
theorem is_tail_call_case_inv (nm : String) (c : Pat × List Stmt)
    (h : is_tail_call_case nm c = true) :
    c.2 = [Stmt.ret (Expr.call nm (tail_call_args_of c))] := by
  unfold is_tail_call_case at h
  split at h
  case _ p f as_ =>
    have hf : f = nm := eq_of_beq h
    subst hf
    rfl
  case _ => cases h

/-- If every arm is a single `return` and the last arm is a wildcard, a
`match` never falls through: its result is a `return`. -/
theorem execCases_wildcard_no_fallthrough (o : Oracle) (fname : String) (w : Nat) :
    ∀ (cs : List (Pat × List Stmt)),
      (∀ c ∈ cs, ∃ e, c.2 = [Stmt.ret e]) →
      (∃ cs0 cw, cs = cs0 ++ [cw] ∧ (cw : Pat × List Stmt).1 = Pat.wildcard) →
      ∀ (env : Env) (sv : Value) (r : ExecR),
        execCases o fname w env sv cs = some r → ∃ u, r = ExecR.ret u := by
  intro cs
  induction cs with
  | nil =>
    rintro _ ⟨cs0, cw, habs, _⟩
    exact absurd habs (by simp)
  | cons c rest ih =>
    rintro hsr ⟨cs0, cw, hsplit, hwild⟩ env sv r hr
    simp only [execCases] at hr
    obtain ⟨p, b⟩ := c
    by_cases hm : matchPat p sv = true
    · rw [if_pos hm] at hr
      obtain ⟨e, he⟩ := hsr (p, b) (by simp)
      simp only [] at he
      subst he
      simp only [execStmts, execStmt] at hr
      cases hev : evalExpr o fname env e with
      | none => rw [hev] at hr; cases hr
      | some u =>
        rw [hev] at hr
        simp only [] at hr
        exact ⟨u, (Option.some.inj hr).symm⟩
    · rw [if_neg hm] at hr
      cases rest with
      | nil =>
        cases cs0 with
        | nil =>
          simp only [List.nil_append] at hsplit
          cases hsplit
          simp only [] at hwild
          rw [hwild] at hm
          simp [matchPat] at hm
        | cons c0 cs0tl => simp at hsplit
      | cons c2 rest2 =>
        refine ih (fun c hc => hsr c (by simp [hc])) ?_ env sv r hr
        cases cs0 with
        | nil =>
          simp only [List.nil_append] at hsplit
          cases hsplit
        | cons c0 cs0tl =>
          simp only [List.cons_append, List.cons.injEq] at hsplit
          exact ⟨cs0tl, cw, hsplit.2, hwild⟩

/-- Inversion of a successful call to a synthesized `while True` function:
the fuel is positive and the loop returns the value from the
parameter-bound environment. -/
theorem whileTrue_call_inv (fn : FuncDef) (lb : List Stmt) (g0 : Nat)
    (vs : List Value) (u : Value)
    (hbody : fn.body = [Stmt.whileS (Expr.constant (Value.bool true)) lb])
    (hlen2 : vs.length = fn.args.length)
    (h : callFunc fn g0 vs = some u) :
    ∃ g1, g0 = g1 + 1 ∧
      execWhile
        (fun env2 => evalExpr (fun ws => callFunc fn g1 ws) fn.name env2
          (Expr.constant (Value.bool true)))
        (fun env2 => execStmts (fun ws => callFunc fn g1 ws) fn.name g1 env2 lb)
        g1 (Env.setMany (fun _ => none) fn.args vs) = some (ExecR.ret u) := by
  cases g0 with
  | zero => rw [callFunc] at h; cases h
  | succ g1 =>
    refine ⟨g1, rfl, ?_⟩
    rw [callFunc] at h
    rw [bindParams_exact fn.args fn.defaults vs hlen2, hbody] at h
    simp only [] at h
    rw [execStmts, execStmt] at h
    cases hw : execWhile
        (fun env2 => evalExpr (fun ws => callFunc fn g1 ws) fn.name env2
          (Expr.constant (Value.bool true)))
        (fun env2 => execStmts (fun ws => callFunc fn g1 ws) fn.name g1 env2 lb)
        g1 (Env.setMany (fun _ => none) fn.args vs) with
    | none => rw [hw] at h; cases h
    | some rr =>
      rw [hw] at h
      obtain ⟨w2, hwr⟩ := execWhile_constTrue_no_next _ fn.name _ g1 g1 _ rr hw
      subst hwr
      simp only [] at h
      rw [Option.some.inj h]

/-- Walking the arms of the original `match` against the arms of the
transformed `match`: when the original produces a result, either a base arm
returned a value (and the transformed match returns the same value under
`fn2`-calls), or the tail arm fired (and the transformed match rebinds the
parameters to the evaluated tail-call arguments), or no arm matched (and
both fall through unchanged). -/
theorem execCases_walk (nm : String) (params : List String) (targs : List Expr)
    (hlen : targs.length = params.length)
    (o1 : Oracle) (fnT : FuncDef) (hoc : OracleToCalls o1 fnT)
    (w : Nat) (env : Env) (sv : Value) :
    ∀ (cs : List (Pat × List Stmt)),
      (∀ c ∈ cs, is_tail_call_case nm c = true →
        c.2 = [Stmt.ret (Expr.call nm targs)]) →
      (∀ c ∈ cs, ∃ e, c.2 = [Stmt.ret e]) →
      ∀ (r : ExecR), execCases o1 nm w env sv cs = some r →
      (∃ u g, r = ExecR.ret u ∧
         execCases (fun ws => callFunc fnT g ws) nm w env sv
           (replaceTail nm (Stmt.assign (Target.ttuple params) (Expr.tupleE targs)) cs) =
           some (ExecR.ret u)) ∨
      (∃ u vs g, r = ExecR.ret u ∧ evalArgs o1 nm env targs = some vs ∧
         o1 vs = some u ∧
         execCases (fun ws => callFunc fnT g ws) nm w env sv
           (replaceTail nm (Stmt.assign (Target.ttuple params) (Expr.tupleE targs)) cs) =
           some (ExecR.next (Env.setMany env params vs))) ∨
      (r = ExecR.next env ∧ ∀ g,
         execCases (fun ws => callFunc fnT g ws) nm w env sv
           (replaceTail nm (Stmt.assign (Target.ttuple params) (Expr.tupleE targs)) cs) =
           some (ExecR.next env)) := by
  intro cs
  induction cs with
  | nil =>
    intro _ _ r hr
    rw [execCases] at hr
    refine Or.inr (Or.inr ⟨(Option.some.inj hr).symm, fun g => ?_⟩)
    rfl
  | cons c rest ih =>
    rintro htail hsr r hr
    obtain ⟨p, b⟩ := c
    simp only [execCases] at hr
    have hrepl : replaceTail nm (Stmt.assign (Target.ttuple params) (Expr.tupleE targs))
        ((p, b) :: rest) =
        (if is_tail_call_case nm (p, b) then
          (p, [Stmt.assign (Target.ttuple params) (Expr.tupleE targs)])
         else (p, b)) ::
        replaceTail nm (Stmt.assign (Target.ttuple params) (Expr.tupleE targs)) rest := rfl
    by_cases hm : matchPat p sv = true
    · rw [if_pos hm] at hr
      by_cases htc : is_tail_call_case nm (p, b) = true
      · have hb := htail (p, b) (by simp) htc
        simp only [] at hb
        subst hb
        simp only [execStmts, execStmt, evalExpr] at hr
        simp only [if_true, eq_self_iff_true] at hr
        cases hargs : evalArgs o1 nm env targs with
        | none => rw [hargs] at hr; cases hr
        | some vs =>
          rw [hargs] at hr
          simp only [] at hr
          cases hcall : o1 vs with
          | none => rw [hcall] at hr; cases hr
          | some u =>
            rw [hcall] at hr
            simp only [] at hr
            obtain ⟨ga, hga⟩ := evalArgs_transfer o1 fnT hoc nm env targs vs hargs
            refine Or.inr (Or.inl ⟨u, vs, ga, (Option.some.inj hr).symm, rfl, hcall, ?_⟩)
            rw [hrepl, if_pos htc]
            simp only [execCases, if_pos hm]
            simp only [execStmts, execStmt, evalExpr]
            rw [hga]
            have hlen2 : vs.length = params.length := by
              rw [evalArgs_length _ nm env targs vs hargs, hlen]
            simp only [execAssign, if_pos hlen2]
      · obtain ⟨e, he⟩ := hsr (p, b) (by simp)
        simp only [] at he
        subst he
        simp only [execStmts, execStmt] at hr
        cases hev : evalExpr o1 nm env e with
        | none => rw [hev] at hr; cases hr
        | some u =>
          rw [hev] at hr
          simp only [] at hr
          obtain ⟨g, hg⟩ := evalExpr_transfer o1 fnT hoc nm env e u hev
          refine Or.inl ⟨u, g, (Option.some.inj hr).symm, ?_⟩
          rw [hrepl, if_neg htc]
          simp only [execCases, if_pos hm]
          simp only [execStmts, execStmt]
          rw [hg]
    · rw [if_neg hm] at hr
      have hres := ih (fun c2 hc2 h2 => htail c2 (by simp [hc2]) h2)
        (fun c2 hc2 => hsr c2 (by simp [hc2])) r hr
      rcases hres with ⟨u, g, hru, htgt⟩ | ⟨u, vs, g, hru, hargs, hcall, htgt⟩ | ⟨hru, htgt⟩
      · refine Or.inl ⟨u, g, hru, ?_⟩
        rw [hrepl]
        by_cases htc : is_tail_call_case nm (p, b) = true
        · rw [if_pos htc]
          simp only [execCases, if_neg hm]
          exact htgt
        · rw [if_neg htc]
          simp only [execCases, if_neg hm]
          exact htgt
      · refine Or.inr (Or.inl ⟨u, vs, g, hru, hargs, hcall, ?_⟩)
        rw [hrepl]
        by_cases htc : is_tail_call_case nm (p, b) = true
        · rw [if_pos htc]
          simp only [execCases, if_neg hm]
          exact htgt
        · rw [if_neg htc]
          simp only [execCases, if_neg hm]
          exact htgt
      · refine Or.inr (Or.inr ⟨hru, fun g => ?_⟩)
        rw [hrepl]
        by_cases htc : is_tail_call_case nm (p, b) = true
        · rw [if_pos htc]
          simp only [execCases, if_neg hm]
          exact htgt g
        · rw [if_neg htc]
          simp only [execCases, if_neg hm]
          exact htgt g

theorem match_sim (nm : String) (params : List String) (defaults : List Value)
    (dv : Value) (subj : Expr) (cases : List (Pat × List Stmt)) (tc : Pat × List Stmt)
    (hfil : cases.filter (is_tail_call_case nm) = [tc])
    (hsr : ∀ c ∈ cases, ∃ e, c.2 = [Stmt.ret e])
    (hwild : ∃ cs0 cw, cases = cs0 ++ [cw] ∧ (cw : Pat × List Stmt).1 = Pat.wildcard)
    (hlen : (tail_call_args_of tc).length = params.length) :
    ∀ (F : Nat) (argv : List Value) (v : Value),
      callFunc (matchOrig nm params defaults (Stmt.exprStmt (Expr.constant dv)) subj cases)
        F argv = some v →
      ∃ G, callFunc (matchLoop nm params defaults subj
        (replaceTail nm (Stmt.assign (Target.ttuple params)
          (Expr.tupleE (tail_call_args_of tc))) cases)) G argv = some v := by
  have htc_mem : tc ∈ cases ∧ is_tail_call_case nm tc = true := by
    have hm : tc ∈ cases.filter (is_tail_call_case nm) := by rw [hfil]; simp
    simpa [List.mem_filter] using hm
  have htail : ∀ c ∈ cases, is_tail_call_case nm c = true →
      c.2 = [Stmt.ret (Expr.call nm (tail_call_args_of tc))] := by
    intro c hc hcc
    have hcf : c ∈ cases.filter (is_tail_call_case nm) := List.mem_filter.mpr ⟨hc, hcc⟩
    rw [hfil] at hcf
    simp only [List.mem_singleton] at hcf
    subst hcf
    exact is_tail_call_case_inv nm c hcc
  intro F
  induction F with
  | zero => intro argv v hv; rw [callFunc] at hv; cases hv
  | succ F ih =>
    intro argv v hv
    set fnO := matchOrig nm params defaults (Stmt.exprStmt (Expr.constant dv)) subj cases
      with hfnO
    set fnT := matchLoop nm params defaults subj
      (replaceTail nm (Stmt.assign (Target.ttuple params)
        (Expr.tupleE (tail_call_args_of tc))) cases) with hfnT
    have hOargs : fnO.args = params := rfl
    have hOdef : fnO.defaults = defaults := rfl
    have hOname : fnO.name = nm := rfl
    have hObody : fnO.body = [Stmt.exprStmt (Expr.constant dv),
      Stmt.matchS subj cases] := rfl
    have hTargs : fnT.args = params := rfl
    have hTdef : fnT.defaults = defaults := rfl
    have hTname : fnT.name = nm := rfl
    have hTbody : fnT.body = [Stmt.whileS (Expr.constant (Value.bool true))
      [Stmt.matchS subj (replaceTail nm (Stmt.assign (Target.ttuple params)
        (Expr.tupleE (tail_call_args_of tc))) cases)]] := rfl
    have hoc : OracleToCalls (fun vs => callFunc fnO F vs) fnT := fun vs u hu => ih vs u hu
    rw [callFunc, hOargs, hOdef, hOname, hObody] at hv
    cases hb : bindParams params defaults argv with
    | none => rw [hb] at hv; cases hv
    | some env0 =>
      rw [hb] at hv
      simp only [] at hv
      simp only [execStmts, execStmt, evalExpr] at hv
      cases hsubj : evalExpr (fun vs => callFunc fnO F vs) nm env0 subj with
      | none => rw [hsubj] at hv; cases hv
      | some sv =>
        rw [hsubj] at hv
        simp only [] at hv
        cases hcs : execCases (fun vs => callFunc fnO F vs) nm F env0 sv cases with
        | none => rw [hcs] at hv; cases hv
        | some rr =>
          rw [hcs] at hv
          obtain ⟨u0, hrr⟩ := execCases_wildcard_no_fallthrough
            (fun vs => callFunc fnO F vs) nm F cases hsr hwild env0 sv rr hcs
          subst hrr
          simp only [] at hv
          have huv := Option.some.inj hv
          subst huv
          obtain ⟨gs, hgs⟩ := evalExpr_transfer _ fnT hoc nm env0 subj sv hsubj
          have hwalk := execCases_walk nm params (tail_call_args_of tc) hlen
            (fun vs => callFunc fnO F vs) fnT hoc F env0 sv cases htail hsr
            (ExecR.ret u0) hcs
          rcases hwalk with ⟨u, g, huu, htgt⟩ | ⟨u, vs, g, huu, hargs, hcall, htgt⟩ |
            ⟨habs, _⟩
          · cases huu
            refine ⟨Nat.succ (Nat.succ (max gs (max g F))), ?_⟩
            have hgs2 : evalExpr (fun vs => callFunc fnT (Nat.succ (max gs (max g F))) vs)
                nm env0 subj = some sv :=
              evalExpr_mono _ _ (oracleLe_of_le fnT gs _ (by omega)) nm env0 subj sv hgs
            have htgt2 : execCases (fun vs => callFunc fnT (Nat.succ (max gs (max g F))) vs)
                nm (Nat.succ (max gs (max g F))) env0 sv
                (replaceTail nm (Stmt.assign (Target.ttuple params)
                  (Expr.tupleE (tail_call_args_of tc))) cases) = some (ExecR.ret u0) :=
              execCases_mono _ _ (oracleLe_of_le fnT g _ (by omega)) nm F _ (by omega)
                _ env0 sv _ htgt
            have hbody : execStmts
                (fun vs => callFunc fnT (Nat.succ (max gs (max g F))) vs) nm
                (Nat.succ (max gs (max g F))) env0
                [Stmt.matchS subj (replaceTail nm (Stmt.assign (Target.ttuple params)
                  (Expr.tupleE (tail_call_args_of tc))) cases)] =
                some (ExecR.ret u0) := by
              rw [execStmts, execStmt, hgs2]
              simp only []
              rw [htgt2]
            rw [callFunc, hTargs, hTdef, hTname, hTbody, hb]
            simp only []
            rw [execStmts, execStmt, execWhile]
            simp only [evalExpr, reduceIte]
            rw [hbody]
            rfl
          · cases huu
            obtain ⟨g0, hg0⟩ := ih vs u0 hcall
            have hlen2 : vs.length = params.length := by
              rw [evalArgs_length _ nm env0 _ vs hargs, hlen]
            obtain ⟨g1, hg01, hrun⟩ := whileTrue_call_inv fnT
              [Stmt.matchS subj (replaceTail nm (Stmt.assign (Target.ttuple params)
                (Expr.tupleE (tail_call_args_of tc))) cases)]
              g0 vs u0 hTbody hlen2 hg0
            rw [hTargs, hTname] at hrun
            refine ⟨Nat.succ (Nat.succ (max gs (max g (max F g1)))), ?_⟩
            have hgs2 : evalExpr
                (fun vs => callFunc fnT (Nat.succ (max gs (max g (max F g1)))) vs)
                nm env0 subj = some sv :=
              evalExpr_mono _ _ (oracleLe_of_le fnT gs _ (by omega)) nm env0 subj sv hgs
            have htgt2 : execCases
                (fun vs => callFunc fnT (Nat.succ (max gs (max g (max F g1)))) vs)
                nm (Nat.succ (max gs (max g (max F g1)))) env0 sv
                (replaceTail nm (Stmt.assign (Target.ttuple params)
                  (Expr.tupleE (tail_call_args_of tc))) cases) =
                some (ExecR.next (Env.setMany env0 params vs)) :=
              execCases_mono _ _ (oracleLe_of_le fnT g _ (by omega)) nm F _ (by omega)
                _ env0 sv _ htgt
            have hbody : execStmts
                (fun vs => callFunc fnT (Nat.succ (max gs (max g (max F g1)))) vs) nm
                (Nat.succ (max gs (max g (max F g1)))) env0
                [Stmt.matchS subj (replaceTail nm (Stmt.assign (Target.ttuple params)
                  (Expr.tupleE (tail_call_args_of tc))) cases)] =
                some (ExecR.next (Env.setMany env0 params vs)) := by
              rw [execStmts, execStmt, hgs2]
              simp only []
              rw [htgt2]
              rfl
            have henv1 : Env.setMany env0 params vs =
                Env.setMany (fun _ => none) params vs :=
              Env.setMany_congr _ _ _ _
                (fun s hs => bindParams_outside params defaults argv env0 hb s hs)
                hlen2.symm
            rw [callFunc, hTargs, hTdef, hTname, hTbody, hb]
            simp only []
            rw [execStmts, execStmt, execWhile]
            simp only [evalExpr, reduceIte]
            rw [hbody]
            simp only []
            rw [henv1]
            have hfin := execWhile_mono
              (fun env2 => evalExpr (fun ws => callFunc fnT g1 ws) nm env2
                (Expr.constant (Value.bool true)))
              (fun env2 => some (Value.bool true))
              (fun env2 => execStmts (fun ws => callFunc fnT g1 ws) nm g1 env2
                [Stmt.matchS subj (replaceTail nm (Stmt.assign (Target.ttuple params)
                  (Expr.tupleE (tail_call_args_of tc))) cases)])
              (fun env2 => execStmts
                (fun ws => callFunc fnT (Nat.succ (max gs (max g (max F g1)))) ws) nm
                (Nat.succ (max gs (max g (max F g1)))) env2
                [Stmt.matchS subj (replaceTail nm (Stmt.assign (Target.ttuple params)
                  (Expr.tupleE (tail_call_args_of tc))) cases)])
              (fun env2 c2 hc2 => hc2)
              (fun env2 r2 hr2 => execStmts_mono _ _
                (oracleLe_of_le fnT g1 _ (by omega)) nm g1 _ (by omega) _ env2 r2 hr2)
              g1 (max gs (max g (max F g1))) (by omega) _ _ hrun
            rw [hfin]
            rfl
          · cases habs

/-- A function the if-transformer recognizes although its first (dropped)
statement is a meaningful assignment, not a docstring. -/
def drop_stmt_fn : FuncDef where
  name := "f"
  args := ["n"]
  defaults := []
  body := [
    Stmt.assign (Target.tname "n")
      (Expr.binop (Expr.name "n") Binop.add (Expr.constant (Value.int 1))),
    Stmt.ifS (Expr.constant (Value.bool true)) [Stmt.ret (Expr.name "n")] [],
    Stmt.ret (Expr.call "f" [Expr.name "n"])]

/-- A dispatch function the match-transformer recognizes although one arm is
not a single return; on subjects no arm matches, the original falls through
and returns `None` while the transformed loop never terminates. -/
def fallthrough_fn : FuncDef where
  name := "f"
  args := ["n"]
  defaults := []
  body := [
    Stmt.exprStmt (Expr.constant (Value.str "doc")),
    Stmt.matchS (Expr.name "n") [
      (Pat.matchValue (Value.int 0), [Stmt.ret (Expr.constant (Value.int 1))]),
      (Pat.matchValue (Value.int 1), [Stmt.ret (Expr.call "f" [Expr.name "n"])])]]

/-- Helper: a `while True` loop whose body always completes normally without
changing the environment runs forever (evaluates to `none` at every fuel). -/
theorem execWhile_stuck (t : Env → Option Value) (b : Env → Option ExecR) (env : Env)
    (ht : t env = some (Value.bool true)) (hb : b env = some (ExecR.next env)) :
    ∀ k, execWhile t b k env = none := by
  intro k
  induction k with
  | zero => rfl
  | succ k ih =>
    rw [execWhile, ht]
    simp only [truthy, reduceIte]
    rw [hb]
    exact ih

/-- On input 5, `fallthrough_fn` returns `None` (no arm matches, the match
falls through), while its transform loops forever. -/
theorem fallthrough_fn_diverges :
    callFunc fallthrough_fn 1 [Value.int 5] = some Value.pynone ∧
    ∀ G, callFunc (tail_recursive fallthrough_fn) G [Value.int 5] = none := by
  refine ⟨rfl, ?_⟩
  intro G
  cases G with
  | zero => rfl
  | succ G =>
    rw [callFunc]
    have hb : bindParams (tail_recursive fallthrough_fn).args
        (tail_recursive fallthrough_fn).defaults [Value.int 5] =
        some (Env.setMany (fun _ => none) ["n"] [Value.int 5]) :=
      bindParams_exact _ _ _ rfl
    rw [hb]
    simp only []
    have hbody : (tail_recursive fallthrough_fn).body =
        [Stmt.whileS (Expr.constant (Value.bool true))
          [Stmt.matchS (Expr.name "n") [
            (Pat.matchValue (Value.int 0), [Stmt.ret (Expr.constant (Value.int 1))]),
            (Pat.matchValue (Value.int 1),
              [Stmt.assign (Target.ttuple ["n"]) (Expr.tupleE [Expr.name "n"])])]]] := rfl
    rw [hbody, execStmts, execStmt]
    rw [execWhile_stuck _ _ _ rfl rfl G]

/-- C1 (counterexample).  The claim "for every function of a recognized
tail-recursive shape, the transformed function produces an identical result
on every input where the original terminates" is false as stated:
`drop_stmt_fn` is recognized by the if-transformer (its first statement,
which the transformer never inspects, is a meaningful assignment), the
original returns 1 on input 0, and the transformed function returns 0. -/
theorem transform_changes_result_on_recognized_input :
    maybe_transform_if_tail_recursion drop_stmt_fn =
      some [Stmt.whileS (Expr.constant (Value.bool true))
        [Stmt.ifS (Expr.constant (Value.bool true)) [Stmt.ret (Expr.name "n")] [],
         Stmt.assign (Target.ttuple ["n"]) (Expr.tupleE [Expr.name "n"])]] ∧
    callFunc drop_stmt_fn 1 [Value.int 0] = some (Value.int 1) ∧
    callFunc (tail_recursive drop_stmt_fn) 2 [Value.int 0] = some (Value.int 0) ∧
    (some (Value.int 1) : Option Value) ≠ some (Value.int 0) := by
  refine ⟨rfl, rfl, rfl, ?_⟩
  simp

/-- C1 (amended).  For every function the transformer recognizes whose
uninspected first statement is a constant expression statement (in practice
the docstring) — and, for the dispatch shape, whose arms are all single
returns with a catch-all last arm — every input on which the original
recursive function terminates with a result makes the transformed function
terminate with the identical result; in particular the transformed
`factorial_if` and `factorial_match` both return 120 on input 5. -/
theorem transform_preserves_results :
    (∀ (fn : FuncDef) (nb : List Stmt) (dv : Value) (rest : List Stmt),
       maybe_transform_if_tail_recursion fn = some nb →
       fn.body = Stmt.exprStmt (Expr.constant dv) :: rest →
       ∀ (F : Nat) (argv : List Value) (v : Value), callFunc fn F argv = some v →
         ∃ G, callFunc (tail_recursive fn) G argv = some v) ∧
    (∀ (fn : FuncDef) (nb : List Stmt) (dv : Value) (subj : Expr)
       (cases : List (Pat × List Stmt)),
       maybe_transform_match_tail_recursion fn = some nb →
       fn.body = [Stmt.exprStmt (Expr.constant dv), Stmt.matchS subj cases] →
       (∀ c ∈ cases, ∃ e, c.2 = [Stmt.ret e]) →
       (∃ cs0 cw, cases = cs0 ++ [cw] ∧ (cw : Pat × List Stmt).1 = Pat.wildcard) →
       ∀ (F : Nat) (argv : List Value) (v : Value), callFunc fn F argv = some v →
         ∃ G, callFunc (tail_recursive fn) G argv = some v) ∧
    callFunc (tail_recursive factorial_if) 8 [Value.int 5] = some (Value.int 120) ∧
    callFunc (tail_recursive factorial_match) 8 [Value.int 5] = some (Value.int 120) := by
  refine ⟨?_, ?_, rfl, rfl⟩
  · intro fn nb dv rest hrec hdoc F argv v hv
    obtain ⟨d, test, baseE, targs, hbody, hlen, hnb⟩ :=
      (maybe_transform_if_characterization fn nb).mp hrec
    have hd : d = Stmt.exprStmt (Expr.constant dv) := by
      rw [hdoc] at hbody
      exact (List.cons.inj hbody).1.symm
    subst hd
    have hfn : fn = guardOrig fn.name fn.args fn.defaults
        (Stmt.exprStmt (Expr.constant dv)) test baseE targs := by
      cases fn
      simp only [guardOrig] at hbody ⊢
      rw [hbody]
    rw [hfn] at hv ⊢
    rw [tail_recursive_guard fn.name fn.args fn.defaults _ test baseE targs hlen]
    exact guard_sim fn.name fn.args fn.defaults dv test baseE targs hlen F argv v hv
  · intro fn nb dv subj cases hrec hdoc hsr hwild F argv v hv
    obtain ⟨d, subj2, cases2, tc, hbody, hfil, hlen, hnb⟩ :=
      (maybe_transform_match_characterization fn nb).mp hrec
    rw [hdoc] at hbody
    have hd : Stmt.exprStmt (Expr.constant dv) = d := (List.cons.inj hbody).1
    subst hd
    have hms : Stmt.matchS subj cases = Stmt.matchS subj2 cases2 :=
      (List.cons.inj (List.cons.inj hbody).2).1
    have hsubj : subj = subj2 := by cases hms; rfl
    have hcases : cases = cases2 := by cases hms; rfl
    subst hsubj
    subst hcases
    have hfn : fn = matchOrig fn.name fn.args fn.defaults
        (Stmt.exprStmt (Expr.constant dv)) subj cases := by
      cases fn
      simp only [matchOrig] at hdoc ⊢
      rw [hdoc]
    have htr : tail_recursive fn = matchLoop fn.name fn.args fn.defaults subj
        (replaceTail fn.name (Stmt.assign (Target.ttuple fn.args)
          (Expr.tupleE (tail_call_args_of tc))) cases) := by
      unfold tail_recursive
      have hifnone : maybe_transform_if_tail_recursion fn = none := by
        cases hif : maybe_transform_if_tail_recursion fn with
        | none => rfl
        | some nb2 =>
          obtain ⟨d3, t3, b3, a3, hb3, _, _⟩ :=
            (maybe_transform_if_characterization fn nb2).mp hif
          rw [hdoc] at hb3
          simp at hb3
      rw [hifnone, hrec, hnb]
      cases fn
      rfl
    rw [htr]
    rw [hfn] at hv
    exact match_sim fn.name fn.args fn.defaults dv subj cases tc hfil hsr hwild hlen
      F argv v hv

/-- C2.  The synthesized rebind is a single tuple-style assignment of all
parameters; executing it evaluates every right-hand side in the pre-rebind
environment and only then updates the parameters as a group; consequently a
cross-dependent swap-style shape (`fib_swap`, with rebind
`n, a, b = n - 1, b, a + b`) computes the same value as the untransformed
recursion. -/
theorem simultaneous_rebind :
    (∀ (params : List String) (cargs : List Expr) (s : Stmt),
       make_assignment_from_call params cargs = some s →
       s = Stmt.assign (Target.ttuple params) (Expr.tupleE cargs)) ∧
    (∀ (o : Oracle) (fname : String) (w : Nat) (env : Env) (params : List String)
       (cargs : List Expr) (vs : List Value),
       evalArgs o fname env cargs = some vs →
       vs.length = params.length →
       execStmt o fname w env (Stmt.assign (Target.ttuple params) (Expr.tupleE cargs)) =
         some (ExecR.next (Env.setMany env params vs))) ∧
    callFunc fib_swap 12 [Value.int 10] = some (Value.int 55) ∧
    callFunc (tail_recursive fib_swap) 13 [Value.int 10] = some (Value.int 55) := by
  refine ⟨?_, ?_, rfl, rfl⟩
  · intro params cargs s h
    unfold make_assignment_from_call at h
    split at h
    · exact (Option.some.inj h).symm
    · cases h
  · intro o fname w env params cargs vs hargs hlen
    simp only [execStmt, evalExpr]
    rw [hargs]
    simp only [execAssign, if_pos hlen]

/-- Witness for C2 at a concrete swap: rebinding `a, b` to `b, a + b` from
the environment `a = 1, b = 2` evaluates both right-hand sides first and
then assigns `a = 2, b = 3`. -/
theorem simultaneous_rebind_witness :
    execStmt (fun _ => none) "f" 0 (Env.setMany (fun _ => none) ["a", "b"]
        [Value.int 1, Value.int 2])
      (Stmt.assign (Target.ttuple ["a", "b"])
        (Expr.tupleE [Expr.name "b", Expr.binop (Expr.name "a") Binop.add (Expr.name "b")])) =
      some (ExecR.next (Env.setMany
        (Env.setMany (fun _ => none) ["a", "b"] [Value.int 1, Value.int 2])
        ["a", "b"] [Value.int 2, Value.int 3])) :=
  simultaneous_rebind.2.1 (fun _ => none) "f" 0
    (Env.setMany (fun _ => none) ["a", "b"] [Value.int 1, Value.int 2])
    ["a", "b"]
    [Expr.name "b", Expr.binop (Expr.name "a") Binop.add (Expr.name "b")]
    [Value.int 2, Value.int 3] rfl rfl

/-- C6.  When shape matching fails — a dispatch with zero tail-call arms,
with two or more tail-call arms, or (in either shape) a tail call whose
argument count differs from the arity — the transform returns the function
unchanged, so its behavior is identical to the original; no exception is
involved (the embedded transformer is a total function). -/
theorem unrecognized_shapes_fall_back :
    (∀ (fn : FuncDef) (d : Stmt) (subj : Expr) (cases : List (Pat × List Stmt)),
       fn.body = [d, Stmt.matchS subj cases] →
       ((cases.filter (is_tail_call_case fn.name)).length = 0 ∨
        2 ≤ (cases.filter (is_tail_call_case fn.name)).length ∨
        (∃ tc, cases.filter (is_tail_call_case fn.name) = [tc] ∧
           (tail_call_args_of tc).length ≠ fn.args.length)) →
       tail_recursive fn = fn ∧
       ∀ (F : Nat) (argv : List Value),
         callFunc (tail_recursive fn) F argv = callFunc fn F argv) ∧
    (∀ (fn : FuncDef) (d : Stmt) (test baseE : Expr) (targs : List Expr),
       fn.body = [d, Stmt.ifS test [Stmt.ret baseE] [],
         Stmt.ret (Expr.call fn.name targs)] →
       targs.length ≠ fn.args.length →
       tail_recursive fn = fn ∧
       ∀ (F : Nat) (argv : List Value),
         callFunc (tail_recursive fn) F argv = callFunc fn F argv) := by
  constructor
  · intro fn d subj cases hbody hfail
    have hif : maybe_transform_if_tail_recursion fn = none := by
      cases hx : maybe_transform_if_tail_recursion fn with
      | none => rfl
      | some nb =>
        obtain ⟨d2, t2, b2, a2, hb2, _, _⟩ :=
          (maybe_transform_if_characterization fn nb).mp hx
        rw [hbody] at hb2
        simp at hb2
    have hmt : maybe_transform_match_tail_recursion fn = none := by
      cases hx : maybe_transform_match_tail_recursion fn with
      | none => rfl
      | some nb =>
        obtain ⟨d2, subj2, cases3, tc, hb2, hfil2, hlen2, _⟩ :=
          (maybe_transform_match_characterization fn nb).mp hx
        rw [hbody] at hb2
        have hcc : cases = cases3 := by
          have := (List.cons.inj (List.cons.inj hb2).2).1
          cases this
          rfl
        subst hcc
        rcases hfail with h0 | h2 | ⟨tc2, hfil3, hne⟩
        · rw [hfil2] at h0; simp at h0
        · rw [hfil2] at h2; simp at h2
        · rw [hfil2] at hfil3
          have : tc = tc2 := by simpa using hfil3
          subst this
          exact absurd hlen2 hne
    have heq : tail_recursive fn = fn := by
      unfold tail_recursive
      rw [hif, hmt]
    exact ⟨heq, fun F argv => by rw [heq]⟩
  · intro fn d test baseE targs hbody hne
    have hif : maybe_transform_if_tail_recursion fn = none := by
      cases hx : maybe_transform_if_tail_recursion fn with
      | none => rfl
      | some nb =>
        obtain ⟨d2, t2, b2, a2, hb2, hlen2, _⟩ :=
          (maybe_transform_if_characterization fn nb).mp hx
        rw [hbody] at hb2
        have h1 : Stmt.ret (Expr.call fn.name targs) = Stmt.ret (Expr.call fn.name a2) :=
          (List.cons.inj (List.cons.inj (List.cons.inj hb2).2).2).1
        have h2 : targs = a2 := by cases h1; rfl
        subst h2
        exact absurd hlen2 hne
    have hmt : maybe_transform_match_tail_recursion fn = none := by
      cases hx : maybe_transform_match_tail_recursion fn with
      | none => rfl
      | some nb =>
        obtain ⟨d2, subj2, cases3, tc, hb2, _, _, _⟩ :=
          (maybe_transform_match_characterization fn nb).mp hx
        rw [hbody] at hb2
        simp at hb2
    have heq : tail_recursive fn = fn := by
      unfold tail_recursive
      rw [hif, hmt]
    exact ⟨heq, fun F argv => by rw [heq]⟩

/-- A dispatch with no tail-call arm at all: shape matching fails. -/
def zero_tail_fn : FuncDef where
  name := "g"
  args := ["n"]
  defaults := []
  body := [
    Stmt.exprStmt (Expr.constant (Value.str "doc")),
    Stmt.matchS (Expr.name "n")
      [(Pat.wildcard, [Stmt.ret (Expr.constant (Value.int 1))])]]

/-- Witness for C6: the zero-tail-arm dispatch is returned unchanged. -/
theorem unrecognized_shapes_fall_back_witness :
    tail_recursive zero_tail_fn = zero_tail_fn ∧
    callFunc (tail_recursive zero_tail_fn) 1 [Value.int 3] =
      callFunc zero_tail_fn 1 [Value.int 3] :=
  ⟨(unrecognized_shapes_fall_back.1 zero_tail_fn _ _ _ rfl (Or.inl rfl)).1,
   (unrecognized_shapes_fall_back.1 zero_tail_fn _ _ _ rfl (Or.inl rfl)).2 1 [Value.int 3]⟩

/-- Witness for C1 (amended) at `factorial_if` on input 5. -/
theorem transform_preserves_results_witness :
    ∃ G, callFunc (tail_recursive factorial_if) G [Value.int 5] =
      some (Value.int 120) :=
  transform_preserves_results.1 factorial_if
    [Stmt.whileS (Expr.constant (Value.bool true))
      [Stmt.ifS (Expr.compare (Expr.name "n") Cmpop.ltE (Expr.constant (Value.int 1)))
        [Stmt.ret (Expr.name "acc")] [],
       Stmt.assign (Target.ttuple ["n", "acc"])
         (Expr.tupleE [Expr.binop (Expr.name "n") Binop.sub (Expr.constant (Value.int 1)),
                       Expr.binop (Expr.name "acc") Binop.mult (Expr.name "n")])]]
    (Value.str "Tail-recursive factorial using if.")
    [Stmt.ifS (Expr.compare (Expr.name "n") Cmpop.ltE (Expr.constant (Value.int 1)))
       [Stmt.ret (Expr.name "acc")] [],
     Stmt.ret (Expr.call "factorial_if"
       [Expr.binop (Expr.name "n") Binop.sub (Expr.constant (Value.int 1)),
        Expr.binop (Expr.name "acc") Binop.mult (Expr.name "n")])]
    rfl rfl 7 [Value.int 5] (Value.int 120) rfl

/-- A guarded tail-recursive function written without a docstring: its body
is exactly the two meaningful statements of the guarded shape. -/
def no_docstring_guard : FuncDef where
  name := "f"
  args := ["n"]
  defaults := []
  body := [
    Stmt.ifS (Expr.compare (Expr.name "n") Cmpop.ltE (Expr.constant (Value.int 0)))
      [Stmt.ret (Expr.constant (Value.int 1))] [],
    Stmt.ret (Expr.call "f" [Expr.binop (Expr.name "n") Binop.sub
      (Expr.constant (Value.int 1))])]

/-- C7 (counterexample).  A function whose body reduces to exactly the two
meaningful statements of the guarded shape — but has no docstring — is NOT
recognized: the transformer demands exactly three statements and only looks
at the second and third. -/
theorem two_statement_guard_not_recognized :
    maybe_transform_if_tail_recursion no_docstring_guard = none ∧
    tail_recursive no_docstring_guard = no_docstring_guard := ⟨rfl, rfl⟩

/-- C7 (amended).  Guarded recognition requires exactly three top-level
statements: an arbitrary first statement that is never inspected (the
docstring slot, dropped by the rewrite), then a single-return `if` guard
with no `else`, then a `return` of a self call with argument count equal to
the arity; exactly then is the function rewritten to the `while True` loop
(which replaces the whole body, first statement included). -/
theorem guarded_recognition_characterization :
    ∀ (fn : FuncDef) (nb : List Stmt),
      (maybe_transform_if_tail_recursion fn = some nb ↔
        ∃ (d : Stmt) (test baseE : Expr) (targs : List Expr),
          fn.body = [d, Stmt.ifS test [Stmt.ret baseE] [],
            Stmt.ret (Expr.call fn.name targs)] ∧
          targs.length = fn.args.length ∧
          nb = [Stmt.whileS (Expr.constant (Value.bool true))
            [Stmt.ifS test [Stmt.ret baseE] [],
             Stmt.assign (Target.ttuple fn.args) (Expr.tupleE targs)]]) ∧
      (maybe_transform_if_tail_recursion fn = some nb →
        tail_recursive fn = { fn with body := nb }) :=
  fun fn nb =>
    ⟨maybe_transform_if_characterization fn nb, by
      intro h
      unfold tail_recursive
      rw [h]⟩

/-- Witness for C7 (amended): `factorial_if` (three statements, docstring
first) is recognized and rewritten to the loop. -/
theorem guarded_recognition_characterization_witness :
    tail_recursive factorial_if = { factorial_if with body :=
      [Stmt.whileS (Expr.constant (Value.bool true))
        [Stmt.ifS (Expr.compare (Expr.name "n") Cmpop.ltE (Expr.constant (Value.int 1)))
          [Stmt.ret (Expr.name "acc")] [],
         Stmt.assign (Target.ttuple ["n", "acc"])
           (Expr.tupleE [Expr.binop (Expr.name "n") Binop.sub (Expr.constant (Value.int 1)),
                         Expr.binop (Expr.name "acc") Binop.mult (Expr.name "n")])]] } :=
  (guarded_recognition_characterization factorial_if
    [Stmt.whileS (Expr.constant (Value.bool true))
      [Stmt.ifS (Expr.compare (Expr.name "n") Cmpop.ltE (Expr.constant (Value.int 1)))
        [Stmt.ret (Expr.name "acc")] [],
       Stmt.assign (Target.ttuple ["n", "acc"])
         (Expr.tupleE [Expr.binop (Expr.name "n") Binop.sub (Expr.constant (Value.int 1)),
                       Expr.binop (Expr.name "acc") Binop.mult (Expr.name "n")])]]).2 rfl

/-! ### Lemmas about the iteration wrapper -/

theorem Store.get_alloc (st : Store) (xs : List Value) :
    (st.alloc xs).2.get (st.alloc xs).1 = xs := by
  unfold Store.alloc Store.get
  simp only []
  induction st.cells with
  | nil => rfl
  | cons c rest ih => simpa using ih

theorem Store.get_setCell_same (st : Store) (r : Ref) (xs : List Value)
    (h : r < st.cells.length) :
    (st.setCell r xs).get r = xs := by
  unfold Store.setCell Store.get
  simp [List.getD, List.getElem?_set_self, h]

theorem List.set_append_last (as : List (List Value)) (b c : List Value) :
    (as ++ [b]).set as.length c = as ++ [c] := by
  induction as with
  | nil => rfl
  | cons a rest ih => simpa using ih

/-- Advance a wrapper `k` times, threading the store. -/
def advanceN : Nat → PracticalStateMachine × Store → PracticalStateMachine × Store
  | 0, ms => ms
  | k + 1, ms =>
    let prev := advanceN k ms
    (PracticalStateMachine.next prev.1 prev.2).2

/-- The full trajectory of a freshly constructed wrapper under repeated
advances: after `k` advances the position and step count are
`min k (length seq)`, the wrapper is exhausted exactly when a failing
advance has happened (`k > length seq`), and the heap cell holds the
history `take (min k (length seq)) seq`. -/
theorem advanceN_spec (fac : Factory) (args kwargs : Value) (st0 : Store) (k : Nat) :
    advanceN k (PracticalStateMachine.init fac args kwargs st0) =
      ({ args := args, kwargs := kwargs, values_yielded := st0.cells.length,
         step_count := min k (fac args kwargs).length,
         exhausted := decide ((fac args kwargs).length < k),
         gen_seq := fac args kwargs,
         gen_pos := min k (fac args kwargs).length },
       Store.mk (st0.cells ++ [(fac args kwargs).take (min k (fac args kwargs).length)])) := by
  induction k with
  | zero =>
    simp only [advanceN, PracticalStateMachine.init, Store.alloc]
    have h1 : min 0 (fac args kwargs).length = 0 := by omega
    have h2 : decide ((fac args kwargs).length < 0) = false := by simp
    rw [h1, h2]
    rfl
  | succ k ih =>
    rw [advanceN]
    simp only [ih]
    by_cases hk : (fac args kwargs).length < k
    · -- already exhausted before this advance
      have hex : decide ((fac args kwargs).length < k) = true := by simpa using hk
      have hex2 : decide ((fac args kwargs).length < k + 1) = true := by
        simp only [decide_eq_true_iff]
        omega
      have hmin : min k (fac args kwargs).length = (fac args kwargs).length := by omega
      have hmin2 : min (k + 1) (fac args kwargs).length = (fac args kwargs).length := by
        omega
      rw [hex, hex2, hmin, hmin2]
      rfl
    · by_cases hk2 : k < (fac args kwargs).length
      · -- a successful advance
        have hex : decide ((fac args kwargs).length < k) = false := by
          simp only [decide_eq_false_iff_not]
          omega
        have hex2 : decide ((fac args kwargs).length < k + 1) = false := by
          simp only [decide_eq_false_iff_not]
          omega
        have hmin : min k (fac args kwargs).length = k := by omega
        have hmin2 : min (k + 1) (fac args kwargs).length = k + 1 := by omega
        rw [hex, hex2, hmin, hmin2]
        unfold PracticalStateMachine.next
        simp only [reduceIte]
        have hget : (fac args kwargs)[k]? = some ((fac args kwargs).get ⟨k, hk2⟩) := by
          simp [List.getElem?_eq_getElem hk2]
        rw [hget]
        simp only []
        simp only [Store.setCell, Store.get]
        have hgd : (st0.cells ++
            [(fac args kwargs).take k]).getD st0.cells.length [] =
            (fac args kwargs).take k := by
          have := Store.get_alloc st0 ((fac args kwargs).take k)
          unfold Store.alloc Store.get at this
          simpa using this
        rw [hgd, List.set_append_last]
        have htake : (fac args kwargs).take k ++ [(fac args kwargs).get ⟨k, hk2⟩] =
            (fac args kwargs).take (k + 1) := by
          rw [List.take_succ]
          simp [List.getElem?_eq_getElem hk2]
        rw [htake]
        rfl
      · -- this advance fails for the first time: k = length
        have hkk : k = (fac args kwargs).length := by omega
        have hex : decide ((fac args kwargs).length < k) = false := by
          simp only [decide_eq_false_iff_not]
          omega
        have hex2 : decide ((fac args kwargs).length < k + 1) = true := by
          simp only [decide_eq_true_iff]
          omega
        have hmin : min k (fac args kwargs).length = (fac args kwargs).length := by omega
        have hmin2 : min (k + 1) (fac args kwargs).length = (fac args kwargs).length := by
          omega
        rw [hex, hex2, hmin, hmin2]
        unfold PracticalStateMachine.next
        simp only [reduceIte]
        have hget : (fac args kwargs)[(fac args kwargs).length]? = none := by
          simp
        rw [hget]
        rfl

mutual

/-- JSON-stable values survive the round trip unchanged. -/
def jsonStable_roundtrip : ∀ (v : Value), jsonStable v = true → jsonToPy (pyToJson v) = v
  | Value.int _, _ => rfl
  | Value.bool _, _ => rfl
  | Value.str _, _ => rfl
  | Value.pynone, _ => rfl
  | Value.list xs, h => by
    simp only [pyToJson, jsonToPy]
    rw [jsonStableList_roundtrip xs (by simpa [jsonStable] using h)]
  | Value.tuple _, h => by simp [jsonStable] at h
  | Value.dict kvs, h => by
    simp only [pyToJson, jsonToPy]
    rw [jsonStableKVs_roundtrip kvs (by simpa [jsonStable] using h)]
  | Value.obj _, h => by simp [jsonStable] at h

/-- Lists of JSON-stable values survive the round trip. -/
def jsonStableList_roundtrip : ∀ (xs : List Value),
    jsonStableList xs = true → jsonToPyList (pyToJsonList xs) = xs
  | [], _ => rfl
  | x :: xs, h => by
    simp only [jsonStableList, Bool.and_eq_true] at h
    simp only [pyToJsonList, jsonToPyList]
    rw [jsonStable_roundtrip x h.1, jsonStableList_roundtrip xs h.2]

/-- Key-value lists of JSON-stable values survive the round trip. -/
def jsonStableKVs_roundtrip : ∀ (kvs : List (String × Value)),
    jsonStableKVs kvs = true → jsonToPyKVs (pyToJsonKVs kvs) = kvs
  | [], _ => rfl
  | (k, v) :: kvs, h => by
    simp only [jsonStableKVs, Bool.and_eq_true] at h
    simp only [pyToJsonKVs, jsonToPyKVs]
    rw [jsonStable_roundtrip v h.1, jsonStableKVs_roundtrip kvs h.2]

end

/-- What `from_json ∘ to_json` recovers: the JSON-normalized form of every
field (`step_count`, `exhausted` and `func_name` exactly; the value fields
through the encoder and decoder). -/
theorem decode_encode_state (sd : StateDict) (st : Store) :
    decode_state (encode_state sd st) =
      some { func_name := sd.func_name, args := jsonToPy (pyToJson sd.args),
             kwargs := jsonToPy (pyToJson sd.kwargs), step_count := sd.step_count,
             values_yielded := jsonToPyList (pyToJsonList (st.get sd.values_yielded)),
             exhausted := sd.exhausted } := by
  unfold encode_state decode_state jlookup
  simp [List.find?]

/-- C4 (counterexample).  The round trip is not structure-preserving: a
freshly constructed wrapper stores its constructor arguments as a tuple, but
`from_json(to_json(...))` returns them as a list (`json.dumps` writes tuples
as arrays and `json.loads` reads arrays back as lists). -/
theorem json_round_trip_changes_args_type :
    decode_state (encode_state (PracticalStateMachine.get_state "echo"
        (PracticalStateMachine.init echoFactory (Value.tuple [Value.int 1])
          (Value.dict []) Store.empty).1)
      (PracticalStateMachine.init echoFactory (Value.tuple [Value.int 1])
        (Value.dict []) Store.empty).2) =
      some { func_name := "echo", args := Value.list [Value.int 1],
             kwargs := Value.dict [], step_count := 0, values_yielded := [],
             exhausted := false } ∧
    (PracticalStateMachine.get_state "echo"
      (PracticalStateMachine.init echoFactory (Value.tuple [Value.int 1])
        (Value.dict []) Store.empty).1).args = Value.tuple [Value.int 1] ∧
    Value.list [Value.int 1] ≠ Value.tuple [Value.int 1] :=
  ⟨rfl, rfl, fun h => Value.noConfusion h⟩

/-- C4 (amended).  `decode(encode(s))` preserves `step_count`, `exhausted`
and `func_name` exactly and maps every value field through the JSON
normalization, which is the identity precisely on JSON-stable values
(numbers, strings, booleans, `None`, lists and string-keyed dicts of such);
tuples — including the `args` tuple itself — come back as lists, and
unsupported objects come back as their string form. -/
theorem json_round_trip_normalizes :
    (∀ (sd : StateDict) (st : Store),
       decode_state (encode_state sd st) =
         some { func_name := sd.func_name, args := jsonToPy (pyToJson sd.args),
                kwargs := jsonToPy (pyToJson sd.kwargs), step_count := sd.step_count,
                values_yielded := jsonToPyList (pyToJsonList (st.get sd.values_yielded)),
                exhausted := sd.exhausted }) ∧
    (∀ (v : Value), jsonStable v = true → jsonToPy (pyToJson v) = v) ∧
    (∀ (xs : List Value), pyToJson (Value.tuple xs) = pyToJson (Value.list xs)) :=
  ⟨decode_encode_state, jsonStable_roundtrip, fun _ => rfl⟩

/-- Witness for C4 (amended): a stable value survives the round trip. -/
theorem json_round_trip_normalizes_witness :
    jsonToPy (pyToJson (Value.list [Value.int 3, Value.str "a"])) =
      Value.list [Value.int 3, Value.str "a"] :=
  json_round_trip_normalizes.2.1 (Value.list [Value.int 3, Value.str "a"]) rfl

/-- C9 (counterexample).  Encoding a state whose constructor arguments
contain a value outside the supported set does not fail with a
serialization error: `json.dumps(..., default=str)` silently replaces the
value by its string form and succeeds. -/
theorem unsupported_value_encodes_as_string :
    encode_state (PracticalStateMachine.get_state "echo"
        (PracticalStateMachine.init echoFactory
          (Value.tuple [Value.obj "A complex object"]) (Value.dict [])
          Store.empty).1)
      (PracticalStateMachine.init echoFactory
        (Value.tuple [Value.obj "A complex object"]) (Value.dict [])
        Store.empty).2 =
      JVal.jobj [("func_name", JVal.jstr "echo"),
                 ("args", JVal.arr [JVal.jstr "A complex object"]),
                 ("kwargs", JVal.jobj []),
                 ("step_count", JVal.num 0),
                 ("values_yielded", JVal.arr []),
                 ("exhausted", JVal.jbool false)] := rfl

/-- C9 (amended).  The encoder is total: every state encodes, and the
encoding always decodes, preserving `func_name`, `step_count` and
`exhausted` and recovering `args`/`kwargs` exactly when they are JSON-stable
(numbers, strings, booleans, `None`, lists, flat string-keyed dicts);
values outside this set are silently replaced by their string form rather
than raising a serialization error. -/
theorem encoder_never_fails :
    (∀ (sd : StateDict) (st : Store), ∃ sv,
       decode_state (encode_state sd st) = some sv ∧
       sv.func_name = sd.func_name ∧ sv.step_count = sd.step_count ∧
       sv.exhausted = sd.exhausted ∧
       (jsonStable sd.args = true → sv.args = sd.args) ∧
       (jsonStable sd.kwargs = true → sv.kwargs = sd.kwargs)) ∧
    (∀ (descr : String), pyToJson (Value.obj descr) = JVal.jstr descr) := by
  constructor
  · intro sd st
    refine ⟨_, decode_encode_state sd st, rfl, rfl, rfl, ?_, ?_⟩
    · intro h
      exact jsonStable_roundtrip sd.args h
    · intro h
      exact jsonStable_roundtrip sd.kwargs h
  · intro descr
    rfl

/-- Witness for C9 (amended) at a concrete JSON-stable state. -/
theorem encoder_never_fails_witness :
    ∃ sv, decode_state (encode_state
        { func_name := "e", args := Value.list [Value.int 1],
          kwargs := Value.dict [], step_count := 0, values_yielded := 0,
          exhausted := false } Store.empty) = some sv ∧
      sv.args = Value.list [Value.int 1] := by
  obtain ⟨sv, h1, _, _, _, hargs, _⟩ := encoder_never_fails.1
    { func_name := "e", args := Value.list [Value.int 1], kwargs := Value.dict [],
      step_count := 0, values_yielded := 0, exhausted := false } Store.empty
  exact ⟨sv, h1, hargs rfl⟩

/-- C3 (counterexample).  `set_state` does not re-invoke the factory when
`step_count = 0`: restoring a step-0 snapshot of a wrapper built over
`(1,)` into a wrapper built over `(2,)` keeps the target's own generator,
so the next advance yields 2 while continued advancing of the snapshotted
wrapper yields 1. -/
theorem restore_at_step_zero_keeps_generator :
    (PracticalStateMachine.next
      (PracticalStateMachine.set_state echoFactory
        (PracticalStateMachine.init echoFactory (Value.tuple [Value.int 2])
          (Value.dict [])
          (PracticalStateMachine.init echoFactory (Value.tuple [Value.int 1])
            (Value.dict []) Store.empty).2).1
        (PracticalStateMachine.get_state "echo"
          (PracticalStateMachine.init echoFactory (Value.tuple [Value.int 1])
            (Value.dict []) Store.empty).1))
      (PracticalStateMachine.init echoFactory (Value.tuple [Value.int 2])
        (Value.dict [])
        (PracticalStateMachine.init echoFactory (Value.tuple [Value.int 1])
          (Value.dict []) Store.empty).2).2).1 = some (Value.int 2) ∧
    (PracticalStateMachine.next
      (PracticalStateMachine.init echoFactory (Value.tuple [Value.int 1])
        (Value.dict []) Store.empty).1
      (PracticalStateMachine.init echoFactory (Value.tuple [Value.int 1])
        (Value.dict []) Store.empty).2).1 = some (Value.int 1) ∧
    (some (Value.int 2) : Option Value) ≠ some (Value.int 1) := by
  refine ⟨rfl, rfl, ?_⟩
  simp

/-- C3 (amended).  When the snapshot has `step_count > 0` and is not
exhausted, `set_state` re-invokes the factory with the snapshot's
constructor arguments, advances the fresh sequence silently `step_count`
times (stopping early, exhausted, if it is shorter), and adopts the
snapshot's history reference and exhausted flag; for a snapshot taken from
a consistent wrapper, the next advance after restore then returns exactly
the value the snapshotted wrapper's own next advance returns.  When
`step_count = 0` or the snapshot is exhausted, the target's current
generator is kept, which can belong to different constructor arguments. -/
theorem restore_replays_when_steps_positive (fac : Factory) (fname : String)
    (w target : PracticalStateMachine) (st st2 : Store)
    (hseq : w.gen_seq = fac w.args w.kwargs)
    (hpos : w.gen_pos = w.step_count)
    (hex : w.exhausted = false)
    (hstep : 0 < w.step_count) :
    (PracticalStateMachine.set_state fac target
        (PracticalStateMachine.get_state fname w)).gen_seq = fac w.args w.kwargs ∧
    (PracticalStateMachine.set_state fac target
        (PracticalStateMachine.get_state fname w)).gen_pos =
      min w.step_count (fac w.args w.kwargs).length ∧
    (PracticalStateMachine.set_state fac target
        (PracticalStateMachine.get_state fname w)).values_yielded = w.values_yielded ∧
    (PracticalStateMachine.next (PracticalStateMachine.set_state fac target
        (PracticalStateMachine.get_state fname w)) st2).1 =
      (PracticalStateMachine.next w st).1 := by
  unfold PracticalStateMachine.set_state PracticalStateMachine.get_state
  simp only []
  rw [if_pos (by exact ⟨hex, hstep⟩)]
  by_cases hshort : (fac w.args w.kwargs).length < w.step_count
  · rw [if_pos hshort]
    refine ⟨by trivial,
      by change (fac w.args w.kwargs).length = _; omega, by trivial, ?_⟩
    have hnone : (fac w.args w.kwargs)[w.step_count]? = none := by
      rw [List.getElem?_eq_none]
      omega
    unfold PracticalStateMachine.next
    simp only [hex, hseq, hpos, hnone, reduceIte]
    rfl
  · rw [if_neg hshort]
    refine ⟨by trivial, by change w.step_count = _; omega, by trivial, ?_⟩
    unfold PracticalStateMachine.next
    simp only [hex, hseq, hpos, reduceIte]
    cases hget : (fac w.args w.kwargs)[w.step_count]? with
    | some v => rfl
    | none => rfl

/-- Witness for C3 (amended): restoring a one-step snapshot over `(1, 2)`
into a wrapper over `(9,)` replays correctly. -/
theorem restore_replays_when_steps_positive_witness :
    (PracticalStateMachine.next (PracticalStateMachine.set_state echoFactory
        (PracticalStateMachine.init echoFactory (Value.tuple [Value.int 9])
          (Value.dict []) Store.empty).1
        (PracticalStateMachine.get_state "e"
          (advanceN 1 (PracticalStateMachine.init echoFactory
            (Value.tuple [Value.int 1, Value.int 2]) (Value.dict [])
            Store.empty)).1))
      Store.empty).1 =
    (PracticalStateMachine.next
      (advanceN 1 (PracticalStateMachine.init echoFactory
        (Value.tuple [Value.int 1, Value.int 2]) (Value.dict []) Store.empty)).1
      (advanceN 1 (PracticalStateMachine.init echoFactory
        (Value.tuple [Value.int 1, Value.int 2]) (Value.dict []) Store.empty)).2).1 :=
  (restore_replays_when_steps_positive echoFactory "e"
    (advanceN 1 (PracticalStateMachine.init echoFactory
      (Value.tuple [Value.int 1, Value.int 2]) (Value.dict []) Store.empty)).1
    (PracticalStateMachine.init echoFactory (Value.tuple [Value.int 9])
      (Value.dict []) Store.empty).1
    (advanceN 1 (PracticalStateMachine.init echoFactory
      (Value.tuple [Value.int 1, Value.int 2]) (Value.dict []) Store.empty)).2
    Store.empty rfl rfl rfl (by decide)).2.2.2

/-- C5 (counterexample).  The snapshot dictionary aliases the wrapper's
`values_yielded` list: after one advance, snapshotting, then a second
advance, the history visible through the snapshot has grown from `[1]` to
`[1, 2]` — the snapshot is not an immutable copy. -/
theorem snapshot_history_mutates :
    (advanceN 1 (PracticalStateMachine.init echoFactory
        (Value.tuple [Value.int 1, Value.int 2]) (Value.dict []) Store.empty)).2.get
      (PracticalStateMachine.get_state "e"
        (advanceN 1 (PracticalStateMachine.init echoFactory
          (Value.tuple [Value.int 1, Value.int 2]) (Value.dict [])
          Store.empty)).1).values_yielded = [Value.int 1] ∧
    (advanceN 2 (PracticalStateMachine.init echoFactory
        (Value.tuple [Value.int 1, Value.int 2]) (Value.dict []) Store.empty)).2.get
      (PracticalStateMachine.get_state "e"
        (advanceN 1 (PracticalStateMachine.init echoFactory
          (Value.tuple [Value.int 1, Value.int 2]) (Value.dict [])
          Store.empty)).1).values_yielded = [Value.int 1, Value.int 2] ∧
    ([Value.int 1] : List Value) ≠ [Value.int 1, Value.int 2] := by
  refine ⟨rfl, rfl, ?_⟩
  simp

/-- C5 (amended).  `get_state` is a pure projection: it performs no store
mutation and copies the scalar fields (`step_count`, `exhausted`, `args`,
`kwargs`), so later advances never change the snapshot's `step_count`; but
`values_yielded` is shared by reference, so a later successful advance
appends the new value to the history seen through the snapshot as well. -/
theorem snapshot_copies_scalars_but_aliases_history (fname : String)
    (m : PracticalStateMachine) (st : Store)
    (href : m.values_yielded < st.cells.length) :
    (PracticalStateMachine.get_state fname m).step_count = m.step_count ∧
    (PracticalStateMachine.get_state fname m).exhausted = m.exhausted ∧
    (PracticalStateMachine.get_state fname m).args = m.args ∧
    (PracticalStateMachine.get_state fname m).kwargs = m.kwargs ∧
    (PracticalStateMachine.get_state fname m).values_yielded = m.values_yielded ∧
    ((PracticalStateMachine.next m st).2.2.get
        (PracticalStateMachine.get_state fname m).values_yielded =
      match (PracticalStateMachine.next m st).1 with
      | some v => st.get m.values_yielded ++ [v]
      | none => st.get m.values_yielded) := by
  refine ⟨rfl, rfl, rfl, rfl, rfl, ?_⟩
  unfold PracticalStateMachine.next PracticalStateMachine.get_state
  by_cases hex : m.exhausted = true
  · simp only [hex, reduceIte]
  · simp only [Bool.not_eq_true] at hex
    simp only [hex, reduceIte]
    cases hget : m.gen_seq[m.gen_pos]? with
    | some v =>
      simp only []
      exact Store.get_setCell_same st m.values_yielded _ href
    | none => rfl

/-- Witness for C5 (amended) on a one-step-advanced wrapper. -/
theorem snapshot_copies_scalars_but_aliases_history_witness :
    (PracticalStateMachine.get_state "e"
      (advanceN 1 (PracticalStateMachine.init echoFactory
        (Value.tuple [Value.int 1, Value.int 2]) (Value.dict [])
        Store.empty)).1).step_count =
    (advanceN 1 (PracticalStateMachine.init echoFactory
      (Value.tuple [Value.int 1, Value.int 2]) (Value.dict [])
      Store.empty)).1.step_count :=
  (snapshot_copies_scalars_but_aliases_history "e"
    (advanceN 1 (PracticalStateMachine.init echoFactory
      (Value.tuple [Value.int 1, Value.int 2]) (Value.dict []) Store.empty)).1
    (advanceN 1 (PracticalStateMachine.init echoFactory
      (Value.tuple [Value.int 1, Value.int 2]) (Value.dict []) Store.empty)).2
    (by decide)).1

/-- C8: on the trajectory of a freshly constructed wrapper, the `k`-th
`advance` (`__next__`) call with `k` below the sequence length returns the
`k`-th element of the underlying sequence, increments `step_count` by one
and appends the returned value to the shared `values_yielded` history;
once the finite sequence is finished (`k ≥ length`) the advance raises
`StopIteration` (modelled as `none`), and on an exhausted wrapper every
subsequent advance raises again while changing nothing. -/
theorem advance_yields_then_exhausts :
    (∀ (fac : Factory) (args kwargs : Value) (st0 : Store) (k : Nat)
        (hk : k < (fac args kwargs).length),
      (PracticalStateMachine.next
          (advanceN k (PracticalStateMachine.init fac args kwargs st0)).1
          (advanceN k (PracticalStateMachine.init fac args kwargs st0)).2).1 =
        some ((fac args kwargs).get ⟨k, hk⟩) ∧
      (advanceN (k + 1) (PracticalStateMachine.init fac args kwargs st0)).1.step_count =
        (advanceN k (PracticalStateMachine.init fac args kwargs st0)).1.step_count + 1 ∧
      (advanceN (k + 1) (PracticalStateMachine.init fac args kwargs st0)).2.get
          (advanceN (k + 1)
            (PracticalStateMachine.init fac args kwargs st0)).1.values_yielded =
        (advanceN k (PracticalStateMachine.init fac args kwargs st0)).2.get
          (advanceN k (PracticalStateMachine.init fac args kwargs st0)).1.values_yielded
          ++ [(fac args kwargs).get ⟨k, hk⟩]) ∧
    (∀ (fac : Factory) (args kwargs : Value) (st0 : Store) (k : Nat),
      (fac args kwargs).length ≤ k →
      (PracticalStateMachine.next
          (advanceN k (PracticalStateMachine.init fac args kwargs st0)).1
          (advanceN k (PracticalStateMachine.init fac args kwargs st0)).2).1 = none) ∧
    (∀ (m : PracticalStateMachine) (st : Store), m.exhausted = true →
      PracticalStateMachine.next m st = (none, m, st)) := by
  refine ⟨?_, ?_, ?_⟩
  · intro fac args kwargs st0 k hk
    have hs := advanceN_spec fac args kwargs st0 k
    have hs2 := advanceN_spec fac args kwargs st0 (k + 1)
    have hex : decide ((fac args kwargs).length < k) = false := by
      simp only [decide_eq_false_iff_not]
      omega
    have hmin : min k (fac args kwargs).length = k := by omega
    have hmin2 : min (k + 1) (fac args kwargs).length = k + 1 := by omega
    rw [hex, hmin] at hs
    rw [hmin2] at hs2
    refine ⟨?_, ?_, ?_⟩
    · rw [hs]
      unfold PracticalStateMachine.next
      rw [if_neg Bool.false_ne_true]
      have hget : (fac args kwargs)[k]? = some ((fac args kwargs).get ⟨k, hk⟩) := by
        simp [List.getElem?_eq_getElem hk]
      rw [hget]
    · rw [hs, hs2]
    · rw [hs, hs2]
      simp only [Store.get]
      have hgd1 : (st0.cells ++
          [(fac args kwargs).take (k + 1)]).getD st0.cells.length [] =
          (fac args kwargs).take (k + 1) := by
        have := Store.get_alloc st0 ((fac args kwargs).take (k + 1))
        unfold Store.alloc Store.get at this
        simpa using this
      have hgd2 : (st0.cells ++
          [(fac args kwargs).take k]).getD st0.cells.length [] =
          (fac args kwargs).take k := by
        have := Store.get_alloc st0 ((fac args kwargs).take k)
        unfold Store.alloc Store.get at this
        simpa using this
      rw [hgd1, hgd2, List.take_succ]
      simp [List.getElem?_eq_getElem hk]
  · intro fac args kwargs st0 k hk
    have hs := advanceN_spec fac args kwargs st0 k
    by_cases hkk : (fac args kwargs).length < k
    · have hex : decide ((fac args kwargs).length < k) = true := by simpa using hkk
      rw [hex] at hs
      rw [hs]
      unfold PracticalStateMachine.next
      simp only [reduceIte]
    · have hke : k = (fac args kwargs).length := by omega
      have hex : decide ((fac args kwargs).length < k) = false := by
        simp only [decide_eq_false_iff_not]
        omega
      have hmin : min k (fac args kwargs).length = (fac args kwargs).length := by omega
      rw [hex, hmin] at hs
      rw [hs]
      unfold PracticalStateMachine.next
      rw [if_neg Bool.false_ne_true]
      have hget : (fac args kwargs)[(fac args kwargs).length]? = none := by simp
      rw [hget]
  · intro m st hm
    unfold PracticalStateMachine.next
    rw [hm]
    simp only [reduceIte]

/-- Witness for C8 on `echoFactory` over the tuple `(1, 2)`: the first
advance returns `1`, and the third advance (past the end) fails. -/
theorem advance_yields_then_exhausts_witness :
    (PracticalStateMachine.next
        (advanceN 0 (PracticalStateMachine.init echoFactory
          (Value.tuple [Value.int 1, Value.int 2]) (Value.dict []) Store.empty)).1
        (advanceN 0 (PracticalStateMachine.init echoFactory
          (Value.tuple [Value.int 1, Value.int 2]) (Value.dict []) Store.empty)).2).1 =
      some (Value.int 1) ∧
    (PracticalStateMachine.next
        (advanceN 2 (PracticalStateMachine.init echoFactory
          (Value.tuple [Value.int 1, Value.int 2]) (Value.dict []) Store.empty)).1
        (advanceN 2 (PracticalStateMachine.init echoFactory
          (Value.tuple [Value.int 1, Value.int 2]) (Value.dict []) Store.empty)).2).1 =
      none :=
  ⟨(advance_yields_then_exhausts.1 echoFactory
      (Value.tuple [Value.int 1, Value.int 2]) (Value.dict []) Store.empty 0
      (by decide)).1,
   advance_yields_then_exhausts.2.1 echoFactory
     (Value.tuple [Value.int 1, Value.int 2]) (Value.dict []) Store.empty 2
     (by decide)⟩

/-- `clone_at_state` breaks the step-count/history invariant: the clone
shares the `values_yielded` list with the original (`get_state` puts the
list itself in the dictionary and `set_state` adopts it), so one advance of
the clone appends to the original's history while the original's
`step_count` stays `0`. -/
theorem clone_advance_breaks_history_invariant :
    (PracticalStateMachine.init echoFactory (Value.tuple [Value.int 7])
        (Value.dict []) Store.empty).1.step_count = 0 ∧
    ((PracticalStateMachine.next
        (PracticalStateMachine.clone_at_state echoFactory "g"
          (PracticalStateMachine.init echoFactory (Value.tuple [Value.int 7])
            (Value.dict []) Store.empty).1
          (PracticalStateMachine.init echoFactory (Value.tuple [Value.int 7])
            (Value.dict []) Store.empty).2).1
        (PracticalStateMachine.clone_at_state echoFactory "g"
          (PracticalStateMachine.init echoFactory (Value.tuple [Value.int 7])
            (Value.dict []) Store.empty).1
          (PracticalStateMachine.init echoFactory (Value.tuple [Value.int 7])
            (Value.dict []) Store.empty).2).2).2.2.get
      (PracticalStateMachine.init echoFactory (Value.tuple [Value.int 7])
        (Value.dict []) Store.empty).1.values_yielded).length = 1 :=
  ⟨rfl, rfl⟩

/-- C10 (amended): on any single wrapper reachable from construction by
advances alone (no clones), `step_count` equals the length of the
`values_yielded` history; and an advance that fails (returns
`StopIteration`, i.e. `none`) changes neither `step_count` nor the heap,
hence neither the history.  With `clone_at_state` in the mix the invariant
fails because the clone and the original share one history list. -/
theorem stepcount_matches_history_without_clones :
    (∀ (fac : Factory) (args kwargs : Value) (st0 : Store) (k : Nat),
      (advanceN k (PracticalStateMachine.init fac args kwargs st0)).1.step_count =
        ((advanceN k (PracticalStateMachine.init fac args kwargs st0)).2.get
          (advanceN k
            (PracticalStateMachine.init fac args kwargs st0)).1.values_yielded).length) ∧
    (∀ (m : PracticalStateMachine) (st : Store),
      (PracticalStateMachine.next m st).1 = none →
      (PracticalStateMachine.next m st).2.1.step_count = m.step_count ∧
      (PracticalStateMachine.next m st).2.2 = st) := by
  constructor
  · intro fac args kwargs st0 k
    rw [advanceN_spec]
    simp only [Store.get]
    have hgd : (st0.cells ++
        [(fac args kwargs).take (min k (fac args kwargs).length)]).getD
          st0.cells.length [] =
        (fac args kwargs).take (min k (fac args kwargs).length) := by
      have := Store.get_alloc st0
        ((fac args kwargs).take (min k (fac args kwargs).length))
      unfold Store.alloc Store.get at this
      simpa using this
    rw [hgd, List.length_take]
    omega
  · intro m st h
    unfold PracticalStateMachine.next at h ⊢
    by_cases hm : m.exhausted = true
    · rw [if_pos hm] at h ⊢
      exact ⟨rfl, rfl⟩
    · rw [if_neg hm] at h ⊢
      cases hg : m.gen_seq[m.gen_pos]? with
      | some v =>
        rw [hg] at h
        simp only [] at h
        exact absurd h (by simp)
      | none =>
        simp only []
        refine ⟨?_, ?_⟩ <;> first | rfl | trivial

/-- Witness for C10 (amended): three advances over a one-element sequence,
then a failing advance on the exhausted wrapper. -/
theorem stepcount_matches_history_without_clones_witness :
    (advanceN 3 (PracticalStateMachine.init echoFactory
        (Value.tuple [Value.int 7]) (Value.dict []) Store.empty)).1.step_count =
      ((advanceN 3 (PracticalStateMachine.init echoFactory
          (Value.tuple [Value.int 7]) (Value.dict []) Store.empty)).2.get
        (advanceN 3 (PracticalStateMachine.init echoFactory
          (Value.tuple [Value.int 7]) (Value.dict [])
            Store.empty)).1.values_yielded).length ∧
    (PracticalStateMachine.next
        (advanceN 3 (PracticalStateMachine.init echoFactory
          (Value.tuple [Value.int 7]) (Value.dict []) Store.empty)).1
        (advanceN 3 (PracticalStateMachine.init echoFactory
          (Value.tuple [Value.int 7]) (Value.dict [])
            Store.empty)).2).2.1.step_count =
      (advanceN 3 (PracticalStateMachine.init echoFactory
        (Value.tuple [Value.int 7]) (Value.dict []) Store.empty)).1.step_count :=
  ⟨stepcount_matches_history_without_clones.1 echoFactory
     (Value.tuple [Value.int 7]) (Value.dict []) Store.empty 3,
   (stepcount_matches_history_without_clones.2
     (advanceN 3 (PracticalStateMachine.init echoFactory
       (Value.tuple [Value.int 7]) (Value.dict []) Store.empty)).1
     (advanceN 3 (PracticalStateMachine.init echoFactory
       (Value.tuple [Value.int 7]) (Value.dict []) Store.empty)).2 rfl).1⟩
